import Mathlib

/-
  Shallow embedding of the multi-hop routing engine (Go source: OnChainV2Router.Route,
  OnChainExchangeRateProvider.GetExchangeRate, calculatePrice, toEighteenDecimals).

  Modeling conventions:
  * Asset identifiers (common.Address) are modeled as naturals with their numeric order.
    The Go code compares addresses both numerically (via SetString of the hex digits) and
    by the String() form; for the addresses in scope both comparisons coincide and are
    modeled by the order on the naturals.
  * big.Int is modeled by the unbounded integers.
  * big.Float values arising in this program are modeled exactly: a finite value is an
    exact rational, and the two infinities are separate constructors.  big.Float.Quo of
    two finite values is exact division; x/0 for x different from 0 yields a signed
    infinity (no error), and 0/0 raises an ErrNaN run-time abort, modeled by the
    distinguished error value GoErr.errNaN.  big.Float.Mul of zero and an infinity also
    raises ErrNaN.
  * Go maps are modeled as association lists with prepend-on-write and first-match
    lookup, which realizes overwrite semantics.
  * A Go run-time abort (slice index out of range, ErrNaN) is modeled as a distinguished
    error result of the embedded function, kept separate from ordinary returned errors
    by its constructor.
  * The external collaborators (trading-pair resolver, pool-reserve reader, token
    decimals reader, pool enumerator) are parameters: a Go method returning (T, error)
    becomes a function into T x Option GoErr, so a call site that discards the error
    component with a blank identifier is modeled by projecting the first component.
-/

/-- Errors: the three validation errors created by Route, opaque collaborator errors,
and the two run-time aborts (big.Float ErrNaN, slice index out of range). -/
inductive GoErr where
  | sameToken
  | zeroMaxHops
  | maxHopsTooLarge
  | collab (code : ℕ)
  | errNaN
  | oobIndex
deriving DecidableEq, Repr

/-- Exact model of the big.Float values computed by this program: a finite exact
rational or a signed infinity. -/
inductive GoFloat where
  | fin (q : ℚ)
  | pinf
  | ninf
deriving DecidableEq, Repr

/-- big.Float.Cmp, returning -1, 0 or 1. -/
def GoFloat.cmp : GoFloat → GoFloat → ℤ
  | .fin x, .fin y => if x < y then -1 else if x = y then 0 else 1
  | .fin _, .pinf => -1
  | .fin _, .ninf => 1
  | .pinf, .pinf => 0
  | .pinf, _ => 1
  | .ninf, .ninf => 0
  | .ninf, _ => -1

/-- Order on modeled big.Float values (Cmp at most 0). -/
def GoFloat.le (a b : GoFloat) : Prop := a.cmp b ≤ 0

/-- Strict order on modeled big.Float values (Cmp below 0). -/
def GoFloat.lt (a b : GoFloat) : Prop := a.cmp b < 0

instance (a b : GoFloat) : Decidable (a.le b) := by unfold GoFloat.le; infer_instance

instance (a b : GoFloat) : Decidable (a.lt b) := by unfold GoFloat.lt; infer_instance

/-- big.Float.Mul.  Multiplying zero by an infinity panics with ErrNaN; every other
product of the values arising here is defined. -/
def GoFloat.mul : GoFloat → GoFloat → Except GoErr GoFloat
  | .fin x, .fin y => .ok (.fin (x * y))
  | .fin x, .pinf => if x = 0 then .error .errNaN else if 0 < x then .ok .pinf else .ok .ninf
  | .fin x, .ninf => if x = 0 then .error .errNaN else if 0 < x then .ok .ninf else .ok .pinf
  | .pinf, .fin y => if y = 0 then .error .errNaN else if 0 < y then .ok .pinf else .ok .ninf
  | .ninf, .fin y => if y = 0 then .error .errNaN else if 0 < y then .ok .ninf else .ok .pinf
  | .pinf, .pinf => .ok .pinf
  | .pinf, .ninf => .ok .ninf
  | .ninf, .pinf => .ok .ninf
  | .ninf, .ninf => .ok .pinf

/-- big.Float.Quo applied to two values obtained by SetInt (as in calculatePrice and
GetExchangeRate): exact division; num/0 for num different from 0 is a signed infinity
(the divisor SetInt 0 is +0); 0/0 panics with ErrNaN. -/
def GoFloat.quoInt (num den : ℤ) : Except GoErr GoFloat :=
  if den = 0 then
    if num = 0 then .error .errNaN
    else if 0 < num then .ok .pinf else .ok .ninf
  else .ok (.fin ((num : ℚ) / (den : ℚ)))

/-- big.Float.Int (truncation toward zero); nil (none) on an infinity.  Only used for
the unused inputAmount argument of calculatePrice. -/
def GoFloat.toIntOpt : GoFloat → Option ℤ
  | .fin q => some (Int.tdiv q.num (q.den : ℤ))
  | _ => none

/-- Embedding of GoFloat into a linear order, used only in specifications/proofs. -/
def GoFloat.val : GoFloat → WithBot (WithTop ℚ)
  | .fin q => ((q : WithTop ℚ) : WithBot (WithTop ℚ))
  | .pinf => ((⊤ : WithTop ℚ) : WithBot (WithTop ℚ))
  | .ninf => ⊥

/-- Go uint8 subtraction a - b (wrap-around modulo 256), for a at most 255. -/
def u8sub (a b : ℕ) : ℕ := (a + 256 - b % 256) % 256

/-- Source: toEighteenDecimals.  The address argument is unused by the Go code.  The
decimals argument is a uint8, so the Go expression 18 - decimals wraps modulo 256. -/
def toEighteenDecimals (tokenAddress : ℕ) (amount : ℤ) (decimals : ℕ) : ℤ :=
  if decimals = 18 then amount
  else amount * (10 : ℤ) ^ (u8sub 18 decimals)

/-- Source: calculatePrice.  The inputAmount argument is unused by the Go code. -/
def calculatePrice (reserve0 reserve1 : ℤ) (decimalsA decimalsB : ℕ)
    (inputAmount : Option ℤ) : Except GoErr GoFloat :=
  let tokenAReserve := toEighteenDecimals 0 reserve0 decimalsA
  let tokenBReserve := toEighteenDecimals 0 reserve1 decimalsB
  GoFloat.quoInt tokenBReserve tokenAReserve

/-- Source: the Pool struct (token0, token1, contract). -/
structure Pool where
  token0 : ℕ
  token1 : ℕ
  contract : ℕ
deriving DecidableEq, Repr

/-- The external collaborators consumed by the router, as pure functions.  A Go method
returning (T, error) is a function into T x Option GoErr; call sites that discard the
error with a blank identifier project the first component. -/
structure Providers where
  getPools : List Pool × Option GoErr
  getTradingPair : ℕ → ℕ → ℕ × Option GoErr
  getPoolReserves : ℕ → (ℤ × ℤ) × Option GoErr
  getTokenDecimals : ℕ → ℕ × Option GoErr

/-- Source: OnChainExchangeRateProvider.GetExchangeRate.  The trading-pair error and
both decimals errors are discarded by the Go code; the reserves error is propagated.
The magnitude comparison of the two addresses is the numeric order of the model. -/
def GetExchangeRate (p : Providers) (tokenA tokenB : ℕ) : Except GoErr GoFloat :=
  if tokenA = tokenB then .error .sameToken
  else
    let pairAddress := (p.getTradingPair tokenA tokenB).1
    let decimalsA := (p.getTokenDecimals tokenA).1
    let decimalsB := (p.getTokenDecimals tokenB).1
    match p.getPoolReserves pairAddress with
    | (_, some e) => .error e
    | ((reserve0, reserve1), none) =>
      if tokenA < tokenB then
        GoFloat.quoInt (toEighteenDecimals tokenB reserve1 decimalsB)
          (toEighteenDecimals tokenA reserve0 decimalsA)
      else if tokenB < tokenA then
        GoFloat.quoInt (toEighteenDecimals tokenB reserve0 decimalsB)
          (toEighteenDecimals tokenA reserve1 decimalsA)
      else .error .sameToken

/-- Append a token if it is not already present (the usedTokens dedup loop). -/
def addToken (acc : List ℕ) (t : ℕ) : List ℕ :=
  if t ∈ acc then acc else acc ++ [t]

/-- Source: Route lines building the node set: dedup all pool member tokens in first-seen
order, then append tokenIn and tokenOut when absent from the pool-derived set. -/
def buildTokens (pools : List Pool) (tokenIn tokenOut : ℕ) : List ℕ :=
  let ts := pools.foldl (fun acc pair => addToken (addToken acc pair.token0) pair.token1) []
  addToken (addToken ts tokenIn) tokenOut

/-- The Go linear scan locating a token index: scans every index, keeps the last match,
initialized to -1. -/
def goFindIndex (tokens : List ℕ) (t : ℕ) : ℤ :=
  (List.range tokens.length).foldl
    (fun acc i => if tokens.getD i 0 = t then (i : ℤ) else acc) (-1)

/-- First-match association-list lookup (prepend-on-write makes this Go map lookup). -/
def alookup {α β : Type} [DecidableEq α] : List (α × β) → α → Option β
  | [], _ => none
  | e :: rest, k => if e.1 = k then some e.2 else alookup rest k

/-- The reserves cache: keyed by the ordered pair of token values (the Go key is the
concatenation of the two fixed-width address strings, which is injective). -/
def Cache : Type := List ((ℕ × ℕ) × (ℤ × ℤ))

/-- Fold over a list in the Except monad, aborting at the first error (explicit
recursion so proofs can unfold it). -/
def exFold {σ α : Type} (f : σ → α → Except GoErr σ) : List α → σ → Except GoErr σ
  | [], s => .ok s
  | x :: xs, s =>
    match f s x with
    | .error e => .error e
    | .ok s2 => exFold f xs s2

/-- One iteration of the cache-population double loop (Route lines 134-147): resolve the
pair, fetch its reserves, store them under key (ti, tj) swapped into ascending-token
order.  Any collaborator error aborts. -/
def populatePair (p : Providers) (cache : Cache) (ti tj : ℕ) : Except GoErr Cache :=
  match p.getTradingPair ti tj with
  | (_, some e) => .error e
  | (pairAddr, none) =>
    match p.getPoolReserves pairAddr with
    | (_, some e) => .error e
    | ((reservesA, reservesB), none) =>
      if tj < ti then .ok (((ti, tj), (reservesB, reservesA)) :: cache)
      else .ok (((ti, tj), (reservesA, reservesB)) :: cache)

/-- Source: the reserves-cache population double loop over all ordered pairs of distinct
token indices. -/
def populateCache (p : Providers) (tokens : List ℕ) : Except GoErr Cache :=
  exFold (fun cache i =>
      exFold (fun cache2 j =>
          if i = j then .ok cache2
          else populatePair p cache2 (tokens.getD i 0) (tokens.getD j 0))
        (List.range tokens.length) cache)
    (List.range tokens.length) []

/-- Source: Route lines 184-192, orienting the cached reserve pair for the edge from
tIn to tOut.  A missing cache entry is a nil-slice index in Go (run-time abort). -/
def orientReserves (cache : Cache) (tIn tOut : ℕ) : Except GoErr (ℤ × ℤ) :=
  if tIn < tOut then
    match alookup cache (tIn, tOut) with
    | none => .error .oobIndex
    | some (r0, r1) => .ok (r0, r1)
  else
    match alookup cache (tOut, tIn) with
    | none => .error .oobIndex
    | some (r0, r1) => .ok (r1, r0)

/-- Source: Route lines 180-196, the per-edge rate: orient the cached reserves, read
both token decimals discarding their errors, and delegate to calculatePrice. -/
def hopRate (p : Providers) (cache : Cache) (tIn tOut : ℕ) (inputAmount : GoFloat) :
    Except GoErr GoFloat :=
  match orientReserves cache tIn tOut with
  | .error e => .error e
  | .ok (reservesInput, reservesOutput) =>
    calculatePrice reservesInput reservesOutput
      (p.getTokenDecimals tIn).1 (p.getTokenDecimals tOut).1 inputAmount.toIntOpt

/-- The mutable state of one DP hop level: the current row of the table and the
predecessor map for this level (Go map modeled by prepend plus first-match lookup). -/
structure LevelState where
  row : List GoFloat
  pm : List (ℕ × ℕ)
deriving DecidableEq, Repr

/-- Source: the body of the relaxation double loop (Route lines 167-204) for one
(input, output) index pair. -/
def relaxCell (p : Providers) (cache : Cache) (tokens : List ℕ) (prevRow : List GoFloat)
    (input output : ℕ) (st : LevelState) : Except GoErr LevelState :=
  if input = output then
    if (st.row.getD output (.fin 0)).cmp (prevRow.getD input (.fin 0)) < 0 then
      .ok { st with row := st.row.set output (prevRow.getD input (.fin 0)) }
    else .ok st
  else
    let inputAmount := prevRow.getD input (.fin 0)
    if inputAmount.cmp (.fin 0) = 0 then .ok st
    else
      match hopRate p cache (tokens.getD input 0) (tokens.getD output 0) inputAmount with
      | .error e => .error e
      | .ok rate =>
        match inputAmount.mul rate with
        | .error e => .error e
        | .ok possibleOutputAmount =>
          if 0 < possibleOutputAmount.cmp (st.row.getD output (.fin 0)) then
            .ok { row := st.row.set output possibleOutputAmount,
                  pm := (tokens.getD output 0, tokens.getD input 0) :: st.pm }
          else .ok st

/-- One full DP hop level: the double loop over all (input, output) index pairs, starting
from a fresh all-zero row and an empty predecessor map. -/
def runLevel (p : Providers) (cache : Cache) (tokens : List ℕ) (prevRow : List GoFloat) :
    Except GoErr LevelState :=
  exFold (fun st input =>
      exFold (fun st2 output => relaxCell p cache tokens prevRow input output st2)
        (List.range tokens.length) st)
    (List.range tokens.length)
    { row := List.replicate tokens.length (.fin 0), pm := [] }

/-- Result of the hop-level loop: all table rows (index = hop level), the per-level
predecessor maps, the best destination value seen, and the Go numHops variable. -/
structure DPResult where
  rows : List (List GoFloat)
  pms : List (List (ℕ × ℕ))
  bestPrice : GoFloat
  numHops : ℕ
deriving DecidableEq, Repr

/-- Source: the outer hop-level loop (Route lines 159-212) for levels 1..maxHops, with
the early break when the destination value does not strictly improve on bestPrice, and
numHops set to level + 1 on each improving level. -/
def dpLoop (p : Providers) (cache : Cache) (tokens : List ℕ) (destIdx : ℕ) :
    ℕ → ℕ → List GoFloat → List (List GoFloat) → List (List (ℕ × ℕ)) →
    GoFloat → ℕ → Except GoErr DPResult
  | 0, _, _, rows, pms, bestPrice, numHops => .ok ⟨rows, pms, bestPrice, numHops⟩
  | remaining + 1, level, prevRow, rows, pms, bestPrice, numHops =>
    match runLevel p cache tokens prevRow with
    | .error e => .error e
    | .ok st =>
      let v := st.row.getD destIdx (.fin 0)
      if 0 ≤ bestPrice.cmp v then .ok ⟨rows ++ [st.row], pms ++ [st.pm], bestPrice, numHops⟩
      else
        dpLoop p cache tokens destIdx remaining (level + 1) st.row
          (rows ++ [st.row]) (pms ++ [st.pm]) v (level + 1)

/-- Source: the path-reconstruction loop (Route lines 217-224): walk levels
numHops-1 down to 0, appending the current token and following the predecessor map,
stopping early when no predecessor entry exists. -/
def walkPath (pms : List (List (ℕ × ℕ))) : ℕ → ℕ → List ℕ → List ℕ
  | 0, _, acc => acc
  | count + 1, currentToken, acc =>
    match alookup (pms.getD count []) currentToken with
    | some t => walkPath pms count t (acc ++ [currentToken])
    | none => acc ++ [currentToken]

/-- Source: OnChainV2Router.Route.  The rateProvider field is a separate collaborator
(wired to GetExchangeRate over the same providers in main).  Validation, the 1-hop fast
path, node-set construction, cache population, the DP loop and path reconstruction
follow the Go code line by line; the final table access at index numHops - 1 is a Go
slice index that panics when numHops = 0 (modeled by the oobIndex abort). -/
def Route (rateProvider : ℕ → ℕ → Except GoErr GoFloat) (p : Providers)
    (tokenIn tokenOut : ℕ) (maxHops : ℕ) : Except GoErr (GoFloat × List ℕ) :=
  if tokenIn = tokenOut then .error .sameToken
  else if maxHops = 0 then .error .zeroMaxHops
  else if maxHops = 1 then
    match rateProvider tokenIn tokenOut with
    | .error e => .error e
    | .ok amountOut => .ok (amountOut, [tokenIn, tokenOut])
  else if 5 < maxHops then .error .maxHopsTooLarge
  else
    match p.getPools with
    | (_, some e) => .error e
    | (pools, none) =>
      let tokens := buildTokens pools tokenIn tokenOut
      let tokenInIndex := goFindIndex tokens tokenIn
      let tokenOutIndex := goFindIndex tokens tokenOut
      match populateCache p tokens with
      | .error e => .error e
      | .ok cache =>
        if tokenInIndex < 0 ∨ (tokens.length : ℤ) ≤ tokenInIndex then .error .oobIndex
        else if tokenOutIndex < 0 ∨ (tokens.length : ℤ) ≤ tokenOutIndex then .error .oobIndex
        else
          let srcIdx := tokenInIndex.toNat
          let destIdx := tokenOutIndex.toNat
          let row0 := (List.replicate tokens.length (GoFloat.fin 0)).set srcIdx (.fin 1)
          match dpLoop p cache tokens destIdx maxHops 1 row0 [row0] [[]] (.fin 0) 0 with
          | .error e => .error e
          | .ok res =>
            let path := (walkPath res.pms res.numHops (tokens.getD destIdx 0) []).reverse
            if res.numHops = 0 then .error .oobIndex
            else .ok ((res.rows.getD (res.numHops - 1) []).getD destIdx (.fin 0), path)

/-
  Concrete collaborator universes used for evaluations, counterexamples and witnesses.
-/

/-- Canonical pair address for an unordered pair of single-digit token identifiers. -/
def pairCode (a b : ℕ) : ℕ := 10 * min a b + max a b

/-- The concrete three-asset scenario of the spec (X = 1, Y = 2, Z = 3, all 18
decimals, pool(X,Y) reserves (100, 200), pool(Y,Z) reserves (100, 50)), with the
missing pool(X,Z) modeled as a resolution failure of the trading-pair collaborator
for that pair. -/
def univC1Err : Providers :=
  { getPools := ([⟨1, 2, 12⟩, ⟨2, 3, 23⟩], none)
    getTradingPair := fun a b =>
      if pairCode a b = 13 then (0, some (.collab 99)) else (pairCode a b, none)
    getPoolReserves := fun addr =>
      if addr = 12 then ((100, 200), none)
      else if addr = 23 then ((100, 50), none)
      else ((0, 0), none)
    getTokenDecimals := fun _ => (18, none) }

/-- The same scenario with the missing pool(X,Z) modeled as a resolvable pair whose
reserves are both zero. -/
def univC1Zero : Providers :=
  { getPools := ([⟨1, 2, 12⟩, ⟨2, 3, 23⟩], none)
    getTradingPair := fun a b => (pairCode a b, none)
    getPoolReserves := fun addr =>
      if addr = 12 then ((100, 200), none)
      else if addr = 23 then ((100, 50), none)
      else ((0, 0), none)
    getTokenDecimals := fun _ => (18, none) }

/-- The same scenario with the missing pool(X,Z) modeled as a pool holding liquidity
only on the X side (so the X to Z rate is zero and no pricing abort occurs). -/
def univC1Empty : Providers :=
  { getPools := ([⟨1, 2, 12⟩, ⟨2, 3, 23⟩], none)
    getTradingPair := fun a b => (pairCode a b, none)
    getPoolReserves := fun addr =>
      if addr = 12 then ((100, 200), none)
      else if addr = 23 then ((100, 50), none)
      else if addr = 13 then ((1, 0), none)
      else ((0, 0), none)
    getTokenDecimals := fun _ => (18, none) }

/-- A universe in which the destination (9) is unreachable from the source (7): no
pools are enumerated and the only pair has all its liquidity on the source side. -/
def univUnreachable : Providers :=
  { getPools := ([], none)
    getTradingPair := fun a b => (pairCode a b, none)
    getPoolReserves := fun addr => if addr = 79 then ((1, 0), none) else ((0, 0), none)
    getTokenDecimals := fun _ => (18, none) }

/-- A universe in which a successful two-hop route exists: the direct pool (1,3) has
rate 1 while the composed route through token 2 has rate 4. -/
def univSuccess : Providers :=
  { getPools := ([⟨1, 2, 12⟩, ⟨2, 3, 23⟩, ⟨1, 3, 13⟩], none)
    getTradingPair := fun a b => (pairCode a b, none)
    getPoolReserves := fun addr =>
      if addr = 12 then ((100, 200), none)
      else if addr = 23 then ((100, 200), none)
      else if addr = 13 then ((100, 100), none)
      else ((0, 0), none)
    getTokenDecimals := fun _ => (18, none) }

/-- A universe with a pool between every pair, every balance equal to 7 and symmetric
pair resolution, used to witness the reserve-orientation theorem. -/
def univFlat : Providers :=
  { getPools := ([], none)
    getTradingPair := fun a b => (pairCode a b, none)
    getPoolReserves := fun _ => ((7, 7), none)
    getTokenDecimals := fun _ => (18, none) }

instance {ε α : Type} [DecidableEq ε] [DecidableEq α] : DecidableEq (Except ε α)
  | .error a, .error b =>
    if h : a = b then .isTrue (by rw [h]) else .isFalse (fun hh => h (Except.error.inj hh))
  | .error _, .ok _ => .isFalse (fun hh => Except.noConfusion hh)
  | .ok _, .error _ => .isFalse (fun hh => Except.noConfusion hh)
  | .ok a, .ok b =>
    if h : a = b then .isTrue (by rw [h]) else .isFalse (fun hh => h (Except.ok.inj hh))

/-- Scaling to eighteen decimals of a positive amount is positive for every decimals
value (the scale factor is a positive power of ten). -/
theorem toEighteenDecimals_pos (t : ℕ) (a : ℤ) (d : ℕ) (ha : 0 < a) :
    0 < toEighteenDecimals t a d := by
  unfold toEighteenDecimals
  split
  · exact ha
  · exact mul_pos ha (pow_pos (by norm_num) _)

/-- Scaling zero to eighteen decimals yields zero for every decimals value. -/
theorem toEighteenDecimals_zero (t : ℕ) (d : ℕ) : toEighteenDecimals t 0 d = 0 := by
  unfold toEighteenDecimals; split <;> simp

/-- C9: normalize(a, 18) returns the amount unchanged, and for every precision d at most
18, normalize(a, d) = a * 10^(18-d), exactly and with no rounding. -/
theorem c9_normalize (a : ℤ) (ha : 0 ≤ a) (t : ℕ) :
    toEighteenDecimals t a 18 = a ∧
    ∀ d : ℕ, d ≤ 18 → toEighteenDecimals t a d = a * (10 : ℤ) ^ (18 - d) := by
  refine ⟨by simp [toEighteenDecimals], ?_⟩
  intro d hd
  by_cases h : d = 18
  · subst h; simp [toEighteenDecimals]
  · have h1 : u8sub 18 d = 18 - d := by unfold u8sub; omega
    simp [toEighteenDecimals, h, h1]

theorem c9_normalize_witness :
    (0 : ℤ) ≤ 5 ∧
    (toEighteenDecimals 0 5 18 = 5 ∧
      ∀ d : ℕ, d ≤ 18 → toEighteenDecimals 0 5 d = 5 * (10 : ℤ) ^ (18 - d)) :=
  ⟨by decide, c9_normalize 5 (by decide) 0⟩

/-- C10: for every precision d with 18 < d at most 255 the normalizer neither fails nor
scales down: the 8-bit subtraction 18 - d wraps, so the result is a * 10^((18-d) mod 256). -/
theorem c10_normalize_wrap (a : ℤ) (t : ℕ) (d : ℕ) (h1 : 18 < d) (h2 : d ≤ 255) :
    toEighteenDecimals t a d = a * (10 : ℤ) ^ ((18 - (d : ℤ)) % 256).toNat := by
  have hne : d ≠ 18 := by omega
  have h3 : ((18 - (d : ℤ)) % 256).toNat = u8sub 18 d := by unfold u8sub; omega
  simp [toEighteenDecimals, hne, h3]

theorem c10_normalize_wrap_witness :
    ((18 : ℕ) < 19 ∧ (19 : ℕ) ≤ 255) ∧
    toEighteenDecimals 0 1 19 = 1 * (10 : ℤ) ^ ((18 - (19 : ℤ)) % 256).toNat ∧
    toEighteenDecimals 0 1 19 = (10 : ℤ) ^ 255 :=
  ⟨⟨by decide, by decide⟩, c10_normalize_wrap 1 0 19 (by decide) (by decide),
   by norm_num [toEighteenDecimals, u8sub]⟩

/-- C3 counterexample: with a zero input-side reserve and a positive output-side reserve
the hop price computation returns +Inf with no error, contradicting the claim that it
fails with a division-by-zero error whenever the input-side reserve is zero. -/
theorem c3_counterexample : calculatePrice 0 1 18 18 none = .ok .pinf := rfl

/-- C3 amended: the hop price computation is strictly positive when both reserves are
strictly positive; with a zero input-side reserve and positive output-side reserve it
returns +Inf without error (the infinity is propagated to the caller); it aborts with
the ErrNaN panic only when both reserves are zero. -/
theorem c3_price_behavior (r0 r1 : ℤ) (dA dB : ℕ) (ia : Option ℤ) :
    (0 < r0 → 0 < r1 →
      ∃ q : ℚ, calculatePrice r0 r1 dA dB ia = .ok (.fin q) ∧ 0 < q) ∧
    (r0 = 0 → 0 < r1 → calculatePrice r0 r1 dA dB ia = .ok .pinf) ∧
    (r0 = 0 → r1 = 0 → calculatePrice r0 r1 dA dB ia = .error .errNaN) := by
  refine ⟨?_, ?_, ?_⟩
  · intro h0 h1
    have ha := toEighteenDecimals_pos 0 r0 dA h0
    have hb := toEighteenDecimals_pos 0 r1 dB h1
    refine ⟨(toEighteenDecimals 0 r1 dB : ℚ) / (toEighteenDecimals 0 r0 dA : ℚ), ?_, ?_⟩
    · simp [calculatePrice, GoFloat.quoInt, ha.ne']
    · exact div_pos (by exact_mod_cast hb) (by exact_mod_cast ha)
  · intro h0 h1
    subst h0
    have hb := toEighteenDecimals_pos 0 r1 dB h1
    simp [calculatePrice, GoFloat.quoInt, toEighteenDecimals_zero, hb.ne', hb]
  · intro h0 h1
    subst h0; subst h1
    simp [calculatePrice, GoFloat.quoInt, toEighteenDecimals_zero]

theorem c3_price_behavior_witness :
    (∃ q : ℚ, calculatePrice 2 3 18 18 none = .ok (.fin q) ∧ 0 < q) ∧
    calculatePrice 0 3 18 18 none = .ok .pinf ∧
    calculatePrice 0 0 18 18 none = .error .errNaN :=
  ⟨(c3_price_behavior 2 3 18 18 none).1 (by decide) (by decide),
   (c3_price_behavior 0 3 18 18 none).2.1 rfl (by decide),
   (c3_price_behavior 0 0 18 18 none).2.2 rfl rfl⟩

/-- C8: route(A, A, k) fails with the same-asset error for every hop count, and hop
counts 0 and 6 fail with the respective hop-count validation errors; the result is the
same for every collaborator assignment, so no collaborator call is involved. -/
theorem c8_validation :
    (∀ (rp : ℕ → ℕ → Except GoErr GoFloat) (p : Providers) (a k : ℕ),
      Route rp p a a k = .error .sameToken) ∧
    (∀ (rp : ℕ → ℕ → Except GoErr GoFloat) (p : Providers) (a b : ℕ), a ≠ b →
      Route rp p a b 0 = .error .zeroMaxHops) ∧
    (∀ (rp : ℕ → ℕ → Except GoErr GoFloat) (p : Providers) (a b : ℕ), a ≠ b →
      Route rp p a b 6 = .error .maxHopsTooLarge) := by
  refine ⟨?_, ?_, ?_⟩
  · intro rp p a k; simp [Route]
  · intro rp p a b h; simp [Route, h]
  · intro rp p a b h; simp [Route, h]

theorem c8_validation_witness :
    Route (GetExchangeRate univSuccess) univSuccess 1 1 4 = .error .sameToken ∧
    Route (GetExchangeRate univSuccess) univSuccess 1 3 0 = .error .zeroMaxHops ∧
    Route (GetExchangeRate univSuccess) univSuccess 1 3 6 = .error .maxHopsTooLarge :=
  ⟨c8_validation.1 _ _ 1 4, c8_validation.2.1 _ _ 1 3 (by decide),
   c8_validation.2.2 _ _ 1 3 (by decide)⟩

/-- C1 (code bug): in the spec's concrete three-asset scenario route(X, Z, 2) cannot
return rate 1.0 with path [X, Y, Z].  Under every modeling of the absent pool(X,Z) the
call aborts: the propagated resolution error, the ErrNaN abort from pricing a
zero-reserve pair, or - when the X-Z edge merely prices to zero - the early break at hop
level 1 (destination value 0 does not strictly improve on the initial best price 0)
leaves numHops = 0 and the final table access at index -1 is out of range. -/
theorem c1_concrete_scenario_fails :
    Route (GetExchangeRate univC1Err) univC1Err 1 3 2 = .error (.collab 99) ∧
    Route (GetExchangeRate univC1Zero) univC1Zero 1 3 2 = .error .errNaN ∧
    Route (GetExchangeRate univC1Empty) univC1Empty 1 3 2 = .error .oobIndex :=
  ⟨rfl, by with_unfolding_all rfl, by with_unfolding_all rfl⟩

/-- C2 counterexample: with the destination unreachable, route does not return a zero
rate and the one-element source path; it aborts with the index-out-of-range panic from
the final table access at numHops - 1 = -1. -/
theorem c2_counterexample :
    Route (GetExchangeRate univUnreachable) univUnreachable 7 9 2 = .error .oobIndex ∧
    Route (GetExchangeRate univUnreachable) univUnreachable 7 9 2 ≠ .ok (.fin 0, [7]) := by
  have h : Route (GetExchangeRate univUnreachable) univUnreachable 7 9 2 = .error .oobIndex := by
    with_unfolding_all rfl
  exact ⟨h, by simp [h]⟩

/-- C4 counterexample: a resolution failure meaning no pool exists for the single pair
(1,3) is not absorbed as an absent edge: cache population propagates it and the whole
route computation aborts with that error instead of skipping the pair and returning the
two-hop route through token 2. -/
theorem c4_counterexample :
    populateCache univC1Err (buildTokens [⟨1, 2, 12⟩, ⟨2, 3, 23⟩] 1 3) = .error (.collab 99) ∧
    Route (GetExchangeRate univC1Err) univC1Err 1 3 2 = .error (.collab 99) :=
  ⟨rfl, rfl⟩

/-- Folding the same list from the same state with pointwise-equal step functions gives
the same result. -/
theorem exFold_congr {σ α : Type} (f g : σ → α → Except GoErr σ)
    (h : ∀ s x, f s x = g s x) : ∀ (l : List α) (s : σ), exFold f l s = exFold g l s := by
  intro l
  induction l with
  | nil => intro s; rfl
  | cons x xs ih =>
    intro s
    simp only [exFold, h]
    cases g s x with
    | error e => rfl
    | ok s2 => exact ih s2

/-- The edge rate only reads the value component of the decimals collaborator. -/
theorem hopRate_ext (p q : Providers)
    (h3 : ∀ t, (p.getTokenDecimals t).1 = (q.getTokenDecimals t).1) :
    ∀ (cache : Cache) (a b : ℕ) (ia : GoFloat),
      hopRate p cache a b ia = hopRate q cache a b ia := by
  intro cache a b ia
  unfold hopRate
  cases orientReserves cache a b with
  | error e => rfl
  | ok rr => cases rr with | mk rIn rOut => simp only [h3]

/-- The relaxation step only reads the value component of the decimals collaborator. -/
theorem relaxCell_ext (p q : Providers)
    (h3 : ∀ t, (p.getTokenDecimals t).1 = (q.getTokenDecimals t).1) :
    ∀ (cache : Cache) (tokens : List ℕ) (prevRow : List GoFloat) (input output : ℕ)
      (st : LevelState),
      relaxCell p cache tokens prevRow input output st
        = relaxCell q cache tokens prevRow input output st := by
  intro cache tokens prevRow input output st
  unfold relaxCell
  simp only [hopRate_ext p q h3]

/-- A hop level only reads the value component of the decimals collaborator. -/
theorem runLevel_ext (p q : Providers)
    (h3 : ∀ t, (p.getTokenDecimals t).1 = (q.getTokenDecimals t).1) :
    ∀ (cache : Cache) (tokens : List ℕ) (prevRow : List GoFloat),
      runLevel p cache tokens prevRow = runLevel q cache tokens prevRow := by
  intro cache tokens prevRow
  unfold runLevel
  exact exFold_congr _ _
    (fun st input => exFold_congr _ _
      (fun st2 output => relaxCell_ext p q h3 cache tokens prevRow input output st2) _ _) _ _

/-- Cache population does not read the decimals collaborator at all. -/
theorem populateCache_ext (p q : Providers)
    (h1 : p.getTradingPair = q.getTradingPair) (h2 : p.getPoolReserves = q.getPoolReserves) :
    ∀ tokens : List ℕ, populateCache p tokens = populateCache q tokens := by
  intro tokens
  unfold populateCache
  refine exFold_congr _ _ (fun cache i => exFold_congr _ _ (fun cache2 j => ?_) _ _) _ _
  unfold populatePair
  simp only [h1, h2]

/-- The hop-level loop only reads the value component of the decimals collaborator. -/
theorem dpLoop_ext (p q : Providers)
    (h3 : ∀ t, (p.getTokenDecimals t).1 = (q.getTokenDecimals t).1) :
    ∀ (cache : Cache) (tokens : List ℕ) (destIdx rem lvl : ℕ) (prevRow : List GoFloat)
      (rows : List (List GoFloat)) (pms : List (List (ℕ × ℕ))) (best : GoFloat) (nh : ℕ),
      dpLoop p cache tokens destIdx rem lvl prevRow rows pms best nh
        = dpLoop q cache tokens destIdx rem lvl prevRow rows pms best nh := by
  intro cache tokens destIdx rem
  induction rem with
  | zero => intros; rfl
  | succ r ih =>
    intro lvl prevRow rows pms best nh
    simp only [dpLoop, runLevel_ext p q h3]
    cases runLevel q cache tokens prevRow with
    | error e => rfl
    | ok st =>
      simp only
      split
      · rfl
      · exact ih _ _ _ _ _ _

/-- Route is unchanged when the collaborators are replaced by ones with the same pools,
pair resolution and reserves, and the same decimals values (arbitrary decimals error
components). -/
theorem Route_ext (p q : Providers)
    (h0 : p.getPools = q.getPools) (h1 : p.getTradingPair = q.getTradingPair)
    (h2 : p.getPoolReserves = q.getPoolReserves)
    (h3 : ∀ t, (p.getTokenDecimals t).1 = (q.getTokenDecimals t).1) :
    ∀ (rp : ℕ → ℕ → Except GoErr GoFloat) (tIn tOut mh : ℕ),
      Route rp p tIn tOut mh = Route rp q tIn tOut mh := by
  intro rp tIn tOut mh
  unfold Route
  simp only [h0, populateCache_ext p q h1 h2, dpLoop_ext p q h3]

/-- C4 amended: every collaborator error during cache population (pool resolution,
including a failure meaning no pool exists, and reserve fetch) aborts the whole route
computation with that error and no partial route is returned, while decimals-fetch
errors never abort anything: the route result is unchanged under arbitrary replacement
of the decimals error component. -/
theorem c4_error_propagation :
    (∀ (rp : ℕ → ℕ → Except GoErr GoFloat) (p : Providers) (tIn tOut mh : ℕ)
        (pools : List Pool) (e : GoErr), tIn ≠ tOut → 2 ≤ mh → mh ≤ 5 →
      p.getPools = (pools, none) →
      populateCache p (buildTokens pools tIn tOut) = .error e →
      Route rp p tIn tOut mh = .error e) ∧
    (∀ (rp : ℕ → ℕ → Except GoErr GoFloat) (p : Providers) (errf : ℕ → Option GoErr)
        (tIn tOut mh : ℕ),
      Route rp { p with getTokenDecimals := fun t => ((p.getTokenDecimals t).1, errf t) }
          tIn tOut mh = Route rp p tIn tOut mh) := by
  constructor
  · intro rp p tIn tOut mh pools e hne h2 h5 hpools hpop
    have h0 : ¬ mh = 0 := by omega
    have h1 : ¬ mh = 1 := by omega
    have h6 : ¬ 5 < mh := by omega
    simp [Route, hne, h0, h1, h6, hpools, hpop]
  · intro rp p errf tIn tOut mh
    exact Route_ext
      { p with getTokenDecimals := fun t => ((p.getTokenDecimals t).1, errf t) } p
      rfl rfl rfl (fun t => rfl) rp tIn tOut mh

theorem c4_error_propagation_witness :
    Route (GetExchangeRate univC1Err) univC1Err 2 3 2 = .error (.collab 99) ∧
    Route (GetExchangeRate univSuccess)
        { univSuccess with
          getTokenDecimals := fun t => ((univSuccess.getTokenDecimals t).1, some (.collab 5)) }
        1 3 2
      = Route (GetExchangeRate univSuccess) univSuccess 1 3 2 :=
  ⟨c4_error_propagation.1 _ _ 2 3 2 [⟨1, 2, 12⟩, ⟨2, 3, 23⟩] (.collab 99)
      (by decide) (by decide) (by decide) rfl rfl,
   c4_error_propagation.2 _ _ _ 1 3 2⟩

/-- getD after set at the same (in-bounds) index. -/
theorem getD_set_self {α : Type} (l : List α) {i : ℕ} (v d : α) (h : i < l.length) :
    (l.set i v).getD i d = v := by
  simp [List.getD_eq_getElem?_getD, List.getElem?_set_self h]

/-- getD after set at a different index. -/
theorem getD_set_ne {α : Type} (l : List α) {i j : ℕ} (hij : i ≠ j) (v d : α) :
    (l.set i v).getD j d = l.getD j d := by
  simp [List.getD_eq_getElem?_getD, List.getElem?_set_ne hij]

/-- getD into the left part of an append. -/
theorem getD_append_left {α : Type} (l1 l2 : List α) {n : ℕ} (h : n < l1.length) (d : α) :
    (l1 ++ l2).getD n d = l1.getD n d := by
  simp [List.getD_eq_getElem?_getD, List.getElem?_append_left h]

/-- getD at the appended element. -/
theorem getD_concat_length {α : Type} (l : List α) (a d : α) :
    (l ++ [a]).getD l.length d = a := by
  simp [List.getD_eq_getElem?_getD]

/-- getD into a replicate. -/
theorem getD_replicate {α : Type} {n m : ℕ} (a d : α) (h : m < n) :
    (List.replicate n a).getD m d = a := by
  simp [List.getD_eq_getElem?_getD, List.getElem?_replicate, h]

/-- A property preserved by every successful step of an Except fold holds of the result. -/
theorem exFold_inv {σ α : Type} {f : σ → α → Except GoErr σ} (P : σ → Prop) :
    ∀ (l : List α), (∀ s x s2, x ∈ l → P s → f s x = .ok s2 → P s2) →
      ∀ (s s2 : σ), P s → exFold f l s = .ok s2 → P s2 := by
  intro l
  induction l with
  | nil =>
    intro _ s s2 hP h
    cases h
    exact hP
  | cons x xs ih =>
    intro hstep s s2 hP h
    unfold exFold at h
    cases hfx : f s x with
    | error e => rw [hfx] at h; cases h
    | ok s1 =>
      rw [hfx] at h
      exact ih (fun s y s2 hy => hstep s y s2 (List.mem_cons_of_mem x hy)) s1 s2
        (hstep s x s1 (List.mem_cons_self x xs) hP hfx) h

/-- A reflexive transitive relation that every successful step respects relates the
initial state of an Except fold to its result. -/
theorem exFold_grow {σ α : Type} {f : σ → α → Except GoErr σ} (R : σ → σ → Prop)
    (hrefl : ∀ s, R s s) (htrans : ∀ a b c, R a b → R b c → R a c) :
    ∀ (l : List α), (∀ s x s2, x ∈ l → f s x = .ok s2 → R s s2) →
      ∀ (s s2 : σ), exFold f l s = .ok s2 → R s s2 := by
  intro l
  induction l with
  | nil =>
    intro _ s s2 h
    cases h
    exact hrefl s
  | cons x xs ih =>
    intro hstep s s2 h
    unfold exFold at h
    cases hfx : f s x with
    | error e => rw [hfx] at h; cases h
    | ok s1 =>
      rw [hfx] at h
      exact htrans s s1 s2 (hstep s x s1 (List.mem_cons_self x xs) hfx)
        (ih (fun s y s2 hy => hstep s y s2 (List.mem_cons_of_mem x hy)) s1 s2 h)

/-- A property established when the fold processes the element x (under a step
invariant P) and preserved by every later successful step holds of the result. -/
theorem exFold_estab {σ α : Type} {f : σ → α → Except GoErr σ} (P Q : σ → Prop)
    (x : α) :
    ∀ (l : List α), (∀ s z s2, z ∈ l → P s → f s z = .ok s2 → P s2) →
      (∀ s z s2, z ∈ l → P s → Q s → f s z = .ok s2 → Q s2) →
      (∀ s s2, P s → f s x = .ok s2 → Q s2) →
      ∀ (s s2 : σ), P s → x ∈ l → exFold f l s = .ok s2 → Q s2 := by
  intro l
  induction l with
  | nil => intro _ _ _ s s2 _ hx; exact absurd hx (List.not_mem_nil x)
  | cons y ys ih =>
    intro hstep hkeep hest s s2 hP hx h
    unfold exFold at h
    cases hfy : f s y with
    | error e => rw [hfy] at h; cases h
    | ok s1 =>
      rw [hfy] at h
      rcases List.mem_cons.mp hx with rfl | hx2
      · exact (exFold_inv (fun s => P s ∧ Q s) ys
          (fun s z s2 hz hpq hf =>
            ⟨hstep s z s2 (List.mem_cons_of_mem x hz) hpq.1 hf,
             hkeep s z s2 (List.mem_cons_of_mem x hz) hpq.1 hpq.2 hf⟩)
          s1 s2 ⟨hstep s x s1 (List.mem_cons_self x ys) hP hfy, hest s s1 hP hfy⟩ h).2
      · exact ih (fun s z s2 hz => hstep s z s2 (List.mem_cons_of_mem y hz))
          (fun s z s2 hz => hkeep s z s2 (List.mem_cons_of_mem y hz))
          hest s1 s2 (hstep s y s1 (List.mem_cons_self y ys) hP hfy) hx2 h

/-- Cmp is zero exactly on equal values. -/
theorem GoFloat.cmp_eq_zero_iff (a b : GoFloat) : a.cmp b = 0 ↔ a = b := by
  cases a <;> cases b
  case fin.fin =>
    rename_i x y
    simp only [GoFloat.cmp, GoFloat.fin.injEq]
    rcases lt_trichotomy x y with h | h | h
    · simp [h, h.ne]
    · simp [h]
    · simp [h.asymm, h.ne']
  all_goals simp [GoFloat.cmp]

/-- Cmp is negative exactly when the value is smaller. -/
theorem GoFloat.cmp_lt_zero_iff (a b : GoFloat) : a.cmp b < 0 ↔ a.val < b.val := by
  cases a <;> cases b
  · rename_i x y
    simp only [GoFloat.cmp, GoFloat.val]
    rcases lt_trichotomy x y with h | h | h
    · rw [if_pos h]
      exact iff_of_true (by norm_num) (by exact_mod_cast h)
    · subst h
      rw [if_neg (lt_irrefl x), if_pos rfl]
      exact iff_of_false (by norm_num) (lt_irrefl _)
    · rw [if_neg h.asymm, if_neg h.ne']
      exact iff_of_false (by norm_num)
        (fun hc => absurd (by exact_mod_cast hc : x < y) h.asymm)
  · exact iff_of_true (by norm_num [GoFloat.cmp])
      (by simp only [GoFloat.val]; exact_mod_cast WithTop.coe_lt_top _)
  · exact iff_of_false (by norm_num [GoFloat.cmp])
      (by simp only [GoFloat.val]; exact not_lt_bot)
  · exact iff_of_false (by norm_num [GoFloat.cmp])
      (by simp only [GoFloat.val]; rw [WithBot.coe_lt_coe]; exact not_top_lt)
  · exact iff_of_false (by norm_num [GoFloat.cmp]) (lt_irrefl _)
  · exact iff_of_false (by norm_num [GoFloat.cmp])
      (by simp only [GoFloat.val]; exact not_lt_bot)
  · exact iff_of_true (by norm_num [GoFloat.cmp])
      (by simp only [GoFloat.val]; exact WithBot.bot_lt_coe _)
  · exact iff_of_true (by norm_num [GoFloat.cmp])
      (by simp only [GoFloat.val]; exact WithBot.bot_lt_coe _)
  · exact iff_of_false (by norm_num [GoFloat.cmp]) (lt_irrefl _)

/-- Cmp is positive exactly when the value is larger. -/
theorem GoFloat.cmp_pos_iff (a b : GoFloat) : 0 < a.cmp b ↔ b.val < a.val := by
  cases a <;> cases b
  · rename_i x y
    simp only [GoFloat.cmp, GoFloat.val]
    rcases lt_trichotomy x y with h | h | h
    · rw [if_pos h]
      exact iff_of_false (by norm_num)
        (fun hc => absurd (by exact_mod_cast hc : y < x) h.asymm)
    · subst h
      rw [if_neg (lt_irrefl x), if_pos rfl]
      exact iff_of_false (by norm_num) (lt_irrefl _)
    · rw [if_neg h.asymm, if_neg h.ne']
      exact iff_of_true (by norm_num) (by exact_mod_cast h)
  · exact iff_of_false (by norm_num [GoFloat.cmp])
      (by simp only [GoFloat.val]; rw [WithBot.coe_lt_coe]; exact not_top_lt)
  · exact iff_of_true (by norm_num [GoFloat.cmp])
      (by simp only [GoFloat.val]; exact WithBot.bot_lt_coe _)
  · exact iff_of_true (by norm_num [GoFloat.cmp])
      (by simp only [GoFloat.val]; exact_mod_cast WithTop.coe_lt_top _)
  · exact iff_of_false (by norm_num [GoFloat.cmp]) (lt_irrefl _)
  · exact iff_of_true (by norm_num [GoFloat.cmp])
      (by simp only [GoFloat.val]; exact WithBot.bot_lt_coe _)
  · exact iff_of_false (by norm_num [GoFloat.cmp])
      (by simp only [GoFloat.val]; exact not_lt_bot)
  · exact iff_of_false (by norm_num [GoFloat.cmp])
      (by simp only [GoFloat.val]; exact not_lt_bot)
  · exact iff_of_false (by norm_num [GoFloat.cmp]) (lt_irrefl _)

/-- Cmp at most zero exactly when the value is at most the other. -/
theorem GoFloat.cmp_le_zero_iff (a b : GoFloat) : a.cmp b ≤ 0 ↔ a.val ≤ b.val := by
  constructor
  · intro h
    rcases lt_or_eq_of_le h with h1 | h1
    · exact le_of_lt ((GoFloat.cmp_lt_zero_iff a b).mp h1)
    · exact le_of_eq (congrArg GoFloat.val ((GoFloat.cmp_eq_zero_iff a b).mp h1))
  · intro h
    rcases lt_or_eq_of_le h with h1 | h1
    · exact le_of_lt ((GoFloat.cmp_lt_zero_iff a b).mpr h1)
    · have : ¬ b.val < a.val := by rw [h1]; exact lt_irrefl _
      have h2 := (GoFloat.cmp_pos_iff a b).not.mpr this
      omega

/-- The value embedding is injective. -/
theorem GoFloat.val_inj {a b : GoFloat} (h : a.val = b.val) : a = b := by
  have : a.cmp b = 0 := by
    have h1 : ¬ a.cmp b < 0 := by
      rw [GoFloat.cmp_lt_zero_iff, h]; exact lt_irrefl _
    have h2 : ¬ 0 < a.cmp b := by
      rw [GoFloat.cmp_pos_iff, h]; exact lt_irrefl _
    omega
  exact (GoFloat.cmp_eq_zero_iff a b).mp this

/-- The appended token is a member. -/
theorem addToken_mem_self (acc : List ℕ) (t : ℕ) : t ∈ addToken acc t := by
  unfold addToken
  split
  · assumption
  · simp

/-- addToken preserves membership. -/
theorem mem_addToken (acc : List ℕ) (t u : ℕ) (h : u ∈ acc) : u ∈ addToken acc t := by
  unfold addToken
  split
  · exact h
  · simp [h]

/-- addToken preserves distinctness. -/
theorem addToken_nodup (acc : List ℕ) (t : ℕ) (h : acc.Nodup) : (addToken acc t).Nodup := by
  unfold addToken
  split
  · exact h
  · rename_i hmem
    simp [List.nodup_append, h, List.disjoint_singleton, hmem]

/-- The requested input token is a node. -/
theorem buildTokens_mem_tokenIn (pools : List Pool) (tIn tOut : ℕ) :
    tIn ∈ buildTokens pools tIn tOut :=
  mem_addToken _ _ _ (addToken_mem_self _ _)

/-- The requested output token is a node. -/
theorem buildTokens_mem_tokenOut (pools : List Pool) (tIn tOut : ℕ) :
    tOut ∈ buildTokens pools tIn tOut :=
  addToken_mem_self _ _

/-- The node list is duplicate-free. -/
theorem buildTokens_nodup (pools : List Pool) (tIn tOut : ℕ) :
    (buildTokens pools tIn tOut).Nodup := by
  unfold buildTokens
  apply addToken_nodup
  apply addToken_nodup
  have main : ∀ (ps : List Pool) (acc : List ℕ), acc.Nodup →
      (ps.foldl (fun acc pair => addToken (addToken acc pair.token0) pair.token1) acc).Nodup := by
    intro ps
    induction ps with
    | nil => intro acc h; exact h
    | cons pr rest ih => intro acc h; exact ih _ (addToken_nodup _ _ (addToken_nodup _ _ h))
  exact main pools [] List.nodup_nil

/-- Membership expressed through getD. -/
theorem mem_getD (tokens : List ℕ) (t : ℕ) (h : t ∈ tokens) :
    ∃ i, i < tokens.length ∧ tokens.getD i 0 = t := by
  obtain ⟨i, hi, hg⟩ := List.mem_iff_getElem.mp h
  exact ⟨i, hi, by rw [List.getD_eq_getElem _ _ hi]; exact hg⟩

/-- In a duplicate-free list, getD (within bounds) is injective. -/
theorem nodup_getD_inj (tokens : List ℕ) (hnd : tokens.Nodup) {i j : ℕ}
    (hi : i < tokens.length) (hj : j < tokens.length)
    (h : tokens.getD i 0 = tokens.getD j 0) : i = j := by
  rw [List.getD_eq_getElem _ _ hi, List.getD_eq_getElem _ _ hj] at h
  exact (hnd.getElem_inj_iff).mp h

/-- The Go last-match index scan: when the token occurs before index n, the fold over
the first n indices returns a matching index. -/
theorem lastIndexFold_spec (tokens : List ℕ) (t : ℕ) :
    ∀ (n : ℕ) (acc : ℤ), (∃ i, i < n ∧ tokens.getD i 0 = t) →
      ∃ j : ℕ, j < n ∧ tokens.getD j 0 = t ∧
        (List.range n).foldl (fun acc i => if tokens.getD i 0 = t then (i : ℤ) else acc) acc
          = (j : ℤ) := by
  intro n
  induction n with
  | zero =>
    rintro acc ⟨i, hi, _⟩
    exact absurd hi (by omega)
  | succ m ih =>
    rintro acc ⟨i, hi, hgi⟩
    rw [List.range_succ, List.foldl_append, List.foldl_cons, List.foldl_nil]
    by_cases hm : tokens.getD m 0 = t
    · exact ⟨m, by omega, hm, by rw [if_pos hm]⟩
    · have hi2 : i < m := by
        rcases Nat.lt_succ_iff_lt_or_eq.mp hi with h | h
        · exact h
        · subst h; exact absurd hgi hm
      obtain ⟨j, hj1, hj2, hj3⟩ := ih acc ⟨i, hi2, hgi⟩
      exact ⟨j, by omega, hj2, by rw [if_neg hm]; exact hj3⟩

/-- Specification of the Go index scan for a token present in the list. -/
theorem goFindIndex_spec (tokens : List ℕ) (t : ℕ) (hmem : t ∈ tokens) :
    0 ≤ goFindIndex tokens t ∧ (goFindIndex tokens t).toNat < tokens.length ∧
      tokens.getD (goFindIndex tokens t).toNat 0 = t := by
  obtain ⟨i, hi, hgi⟩ := mem_getD tokens t hmem
  obtain ⟨j, hj1, hj2, hj3⟩ := lastIndexFold_spec tokens t tokens.length (-1) ⟨i, hi, hgi⟩
  unfold goFindIndex
  rw [hj3]
  refine ⟨by omega, by simpa using hj1, by simpa using hj2⟩

/-- Characterization of one successful cache-population step. -/
theorem populatePair_ok (p : Providers) (c : Cache) (ti tj : ℕ) (c2 : Cache)
    (h : populatePair p c ti tj = .ok c2) :
    ∃ pa rA rB, p.getTradingPair ti tj = (pa, none) ∧
      p.getPoolReserves pa = ((rA, rB), none) ∧
      c2 = ((ti, tj), if tj < ti then (rB, rA) else (rA, rB)) :: c := by
  unfold populatePair at h
  rcases hgp : p.getTradingPair ti tj with ⟨pa, e⟩
  cases e with
  | some e2 =>
    rw [hgp] at h
    exact Except.noConfusion h
  | none =>
    simp only [hgp] at h
    rcases hr : p.getPoolReserves pa with ⟨⟨rA, rB⟩, e2⟩
    cases e2 with
    | some e3 =>
      rw [hr] at h
      exact Except.noConfusion h
    | none =>
      simp only [hr] at h
      refine ⟨pa, rA, rB, ?_, ?_, ?_⟩
      · first
          | exact hgp
          | rfl
      · first
          | exact hr
          | rfl
      split at h <;> rename_i hcond <;> (cases h; simp [hcond])

/-- Characterization of a successfully populated reserves cache: for each ordered pair
of distinct member tokens, the pair was resolved with no error, its reserves fetched
with no error, and the cache holds them under the ordered-pair key, swapped into
ascending-token order. -/
theorem populateCache_lookup (p : Providers) (tokens : List ℕ) (cache : Cache)
    (hpop : populateCache p tokens = .ok cache) :
    ∀ u v, u ∈ tokens → v ∈ tokens → u ≠ v →
      ∃ pa rA rB, p.getTradingPair u v = (pa, none) ∧
        p.getPoolReserves pa = ((rA, rB), none) ∧
        alookup cache (u, v) = some (if v < u then (rB, rA) else (rA, rB)) := by
  intro u v hu hv huv
  obtain ⟨i0, hi0, hgu⟩ := mem_getD tokens u hu
  obtain ⟨j0, hj0, hgv⟩ := mem_getD tokens v hv
  have hij : i0 ≠ j0 := fun h => huv (by rw [← hgu, ← hgv, h])
  set Q : Cache → Prop := fun c =>
    ∃ pa rA rB, p.getTradingPair u v = (pa, none) ∧
      p.getPoolReserves pa = ((rA, rB), none) ∧
      alookup c (u, v) = some (if v < u then (rB, rA) else (rA, rB)) with hQdef
  have hkeep_pair : ∀ (c : Cache) (ti tj : ℕ) (c2 : Cache),
      Q c → populatePair p c ti tj = .ok c2 → Q c2 := by
    intro c ti tj c2 hQ hok
    obtain ⟨pa2, rA2, rB2, hg2, hr2, hc2⟩ := populatePair_ok p c ti tj c2 hok
    obtain ⟨pa, rA, rB, hg, hr, hl⟩ := hQ
    by_cases hkey : (ti, tj) = (u, v)
    · injection hkey with h1 h2
      subst h1; subst h2
      rw [hg] at hg2
      injection hg2 with h3 _
      subst h3
      rw [hr] at hr2
      injection hr2 with h4 _
      injection h4 with h5 h6
      subst h5; subst h6
      refine ⟨pa, rA, rB, hg, hr, ?_⟩
      rw [hc2]
      simp [alookup]
    · refine ⟨pa, rA, rB, hg, hr, ?_⟩
      rw [hc2]
      simp only [alookup, if_neg hkey]
      exact hl
  have hkeep_inner : ∀ (i : ℕ) (c : Cache) (j : ℕ) (c2 : Cache), Q c →
      (if i = j then Except.ok c else
        populatePair p c (tokens.getD i 0) (tokens.getD j 0)) = .ok c2 → Q c2 := by
    intro i c j c2 hQ hok
    by_cases hij2 : i = j
    · rw [if_pos hij2] at hok
      cases hok
      exact hQ
    · rw [if_neg hij2] at hok
      exact hkeep_pair c _ _ c2 hQ hok
  have hkeep_outer : ∀ (c : Cache) (i : ℕ) (c2 : Cache), Q c →
      exFold (fun c3 j => if i = j then Except.ok c3 else
        populatePair p c3 (tokens.getD i 0) (tokens.getD j 0))
        (List.range tokens.length) c = .ok c2 → Q c2 := by
    intro c i c2 hQ hok
    exact exFold_inv Q _ (fun s x s2 _ hq hf => hkeep_inner i s x s2 hq hf) c c2 hQ hok
  have hest_inner : ∀ (c c2 : Cache),
      (if i0 = j0 then Except.ok c else
        populatePair p c (tokens.getD i0 0) (tokens.getD j0 0)) = .ok c2 → Q c2 := by
    intro c c2 hok
    rw [if_neg hij, hgu, hgv] at hok
    obtain ⟨pa, rA, rB, hg, hr, hc2⟩ := populatePair_ok p c u v c2 hok
    refine ⟨pa, rA, rB, hg, hr, ?_⟩
    rw [hc2]
    simp [alookup]
  have hest_outer : ∀ (c c2 : Cache),
      exFold (fun c3 j => if i0 = j then Except.ok c3 else
        populatePair p c3 (tokens.getD i0 0) (tokens.getD j 0))
        (List.range tokens.length) c = .ok c2 → Q c2 := by
    intro c c2 hok
    exact exFold_estab (fun _ => True) Q j0 (List.range tokens.length)
      (fun _ _ _ _ _ _ => trivial)
      (fun s x s2 _ _ hq hf => hkeep_inner i0 s x s2 hq hf)
      (fun s s2 _ hf => hest_inner s s2 hf)
      c c2 trivial (List.mem_range.mpr hj0) hok
  unfold populateCache at hpop
  exact exFold_estab (fun _ => True) Q i0 (List.range tokens.length)
    (fun _ _ _ _ _ _ => trivial)
    (fun s x s2 _ _ hq hf => hkeep_outer s x s2 hq hf)
    (fun s s2 _ hf => hest_outer s s2 hf)
    [] cache trivial (List.mem_range.mpr hi0) hpop

/-- Reduction of Route on the general (multi-hop) path: with valid inputs, an
error-free pool enumeration and a successfully populated cache, Route is the DP loop
followed by path reconstruction and the final numHops-indexed table access. -/
theorem Route_general (rp : ℕ → ℕ → Except GoErr GoFloat) (p : Providers)
    (pools : List Pool) (cache : Cache) (tIn tOut mh : ℕ)
    (hne : tIn ≠ tOut) (h2 : 2 ≤ mh) (h5 : mh ≤ 5)
    (hpools : p.getPools = (pools, none))
    (hpop : populateCache p (buildTokens pools tIn tOut) = .ok cache) :
    Route rp p tIn tOut mh =
      match dpLoop p cache (buildTokens pools tIn tOut)
          (goFindIndex (buildTokens pools tIn tOut) tOut).toNat mh 1
          ((List.replicate (buildTokens pools tIn tOut).length (GoFloat.fin 0)).set
            (goFindIndex (buildTokens pools tIn tOut) tIn).toNat (.fin 1))
          [((List.replicate (buildTokens pools tIn tOut).length (GoFloat.fin 0)).set
            (goFindIndex (buildTokens pools tIn tOut) tIn).toNat (.fin 1))]
          [[]] (.fin 0) 0 with
      | .error e => .error e
      | .ok res =>
        if res.numHops = 0 then .error .oobIndex
        else
          .ok ((res.rows.getD (res.numHops - 1) []).getD
              (goFindIndex (buildTokens pools tIn tOut) tOut).toNat (.fin 0),
            (walkPath res.pms res.numHops
              ((buildTokens pools tIn tOut).getD
                (goFindIndex (buildTokens pools tIn tOut) tOut).toNat 0) []).reverse) := by
  have h0 : ¬ mh = 0 := by omega
  have h1 : ¬ mh = 1 := by omega
  have h6 : ¬ 5 < mh := by omega
  obtain ⟨hin0, hin1, _⟩ := goFindIndex_spec _ tIn (buildTokens_mem_tokenIn pools tIn tOut)
  obtain ⟨hout0, hout1, _⟩ := goFindIndex_spec _ tOut (buildTokens_mem_tokenOut pools tIn tOut)
  have hgin : ¬ (goFindIndex (buildTokens pools tIn tOut) tIn < 0 ∨
      ((buildTokens pools tIn tOut).length : ℤ) ≤ goFindIndex (buildTokens pools tIn tOut) tIn) := by
    omega
  have hgout : ¬ (goFindIndex (buildTokens pools tIn tOut) tOut < 0 ∨
      ((buildTokens pools tIn tOut).length : ℤ) ≤ goFindIndex (buildTokens pools tIn tOut) tOut) := by
    omega
  simp only [Route, if_neg hne, if_neg h0, if_neg h1, if_neg h6, hpools, hpop,
    if_neg hgin, if_neg hgout]

/-- C2 amended: for every multi-hop call (2 to 5 hops) whose destination is unreachable
(its DP value is zero at hop level 1, as it is in particular when it stays zero at every
level), the router does not return a zero rate and a one-element path: the early break
fires after level 1 with numHops still 0 and the final table access at index
numHops - 1 = -1 aborts with the index-out-of-range panic. -/
theorem c2_unreachable_panics (rp : ℕ → ℕ → Except GoErr GoFloat) (p : Providers)
    (pools : List Pool) (cache : Cache) (tIn tOut mh : ℕ)
    (hne : tIn ≠ tOut) (h2 : 2 ≤ mh) (h5 : mh ≤ 5)
    (hpools : p.getPools = (pools, none))
    (hpop : populateCache p (buildTokens pools tIn tOut) = .ok cache)
    (hzero : (runLevel p cache (buildTokens pools tIn tOut)
        ((List.replicate (buildTokens pools tIn tOut).length (GoFloat.fin 0)).set
          (goFindIndex (buildTokens pools tIn tOut) tIn).toNat (.fin 1))).map
        (fun st => st.row.getD (goFindIndex (buildTokens pools tIn tOut) tOut).toNat (.fin 0))
      = .ok (.fin 0)) :
    Route rp p tIn tOut mh = .error .oobIndex := by
  rw [Route_general rp p pools cache tIn tOut mh hne h2 h5 hpools hpop]
  obtain ⟨k, rfl⟩ : ∃ k, mh = k + 1 := ⟨mh - 1, by omega⟩
  cases hrl : runLevel p cache (buildTokens pools tIn tOut)
      ((List.replicate (buildTokens pools tIn tOut).length (GoFloat.fin 0)).set
        (goFindIndex (buildTokens pools tIn tOut) tIn).toNat (.fin 1)) with
  | error e =>
    rw [hrl] at hzero
    simp [Except.map] at hzero
  | ok st =>
    rw [hrl] at hzero
    simp only [Except.map] at hzero
    injection hzero with hzero2
    simp only [dpLoop, hrl]
    rw [hzero2]
    norm_num [GoFloat.cmp]

theorem c2_unreachable_panics_witness :
    Route (GetExchangeRate univUnreachable) univUnreachable 7 9 2 = .error .oobIndex :=
  c2_unreachable_panics (GetExchangeRate univUnreachable) univUnreachable []
    [((9, 7), (0, 1)), ((7, 9), (1, 0))] 7 9 2
    (by decide) (by decide) (by decide) rfl (by with_unfolding_all rfl)
    (by with_unfolding_all rfl)

/-- C5: given the collaborator contract that the reserve pair of every pool is reported
with the smaller asset identifier's balance first (hB, via the balance function B) and
that pair resolution is argument-order independent, every hop priced during routing is
correctly oriented: the cached reserve pair looked up by a DP relaxation step yields
(balance of the input asset, balance of the output asset), whose first component
calculatePrice uses as the input-side (denominator) reserve; and the direct quote
divides the output asset's balance by the input asset's balance. -/
theorem c5_reserve_orientation (p : Providers) (B : ℕ → ℕ → ℤ)
    (hB : ∀ x y, x < y →
      p.getPoolReserves ((p.getTradingPair x y).1) = ((B x y, B y x), none))
    (hsym : ∀ x y, (p.getTradingPair x y).1 = (p.getTradingPair y x).1) :
    (∀ (tokens : List ℕ) (cache : Cache), populateCache p tokens = .ok cache →
      ∀ u v, u ∈ tokens → v ∈ tokens → u ≠ v →
        orientReserves cache u v = .ok (B u v, B v u)) ∧
    (∀ a b, a ≠ b →
      GetExchangeRate p a b =
        GoFloat.quoInt (toEighteenDecimals b (B b a) (p.getTokenDecimals b).1)
          (toEighteenDecimals a (B a b) (p.getTokenDecimals a).1)) := by
  constructor
  · intro tokens cache hpop u v hu hv huv
    rcases Nat.lt_or_ge u v with hlt | hge
    · obtain ⟨pa, rA, rB, hg, hr, hl⟩ := populateCache_lookup p tokens cache hpop u v hu hv huv
      have hpa : pa = (p.getTradingPair u v).1 := by rw [hg]
      rw [hpa] at hr
      have heq := hr.symm.trans (hB u v hlt)
      injection heq with h1 _
      injection h1 with h2 h3
      subst h2; subst h3
      unfold orientReserves
      rw [if_pos hlt, hl, if_neg (by omega : ¬ v < u)]
    · have hlt : v < u := by omega
      obtain ⟨pa, rA, rB, hg, hr, hl⟩ :=
        populateCache_lookup p tokens cache hpop v u hv hu (Ne.symm huv)
      have hpa : pa = (p.getTradingPair v u).1 := by rw [hg]
      rw [hpa] at hr
      have heq := hr.symm.trans (hB v u hlt)
      injection heq with h1 _
      injection h1 with h2 h3
      subst h2; subst h3
      unfold orientReserves
      rw [if_neg (by omega : ¬ u < v), hl, if_neg (by omega : ¬ u < v)]
  · intro a b hab
    unfold GetExchangeRate
    rw [if_neg hab]
    rcases Nat.lt_or_ge a b with hlt | hge
    · simp only [hB a b hlt]
      rw [if_pos hlt]
    · have hlt : b < a := by omega
      have hres : p.getPoolReserves ((p.getTradingPair a b).1) = ((B b a, B a b), none) := by
        rw [hsym a b]; exact hB b a hlt
      simp only [hres]
      rw [if_neg (by omega : ¬ a < b), if_pos hlt]

theorem c5_reserve_orientation_witness :
    orientReserves [((2, 1), (7, 7)), ((1, 2), (7, 7))] 1 2 = .ok (7, 7) ∧
    GetExchangeRate univFlat 1 2 =
      GoFloat.quoInt (toEighteenDecimals 2 7 (univFlat.getTokenDecimals 2).1)
        (toEighteenDecimals 1 7 (univFlat.getTokenDecimals 1).1) :=
  ⟨(c5_reserve_orientation univFlat (fun _ _ => 7) (fun _ _ _ => rfl)
      (by intro x y; simp [univFlat, pairCode, Nat.min_comm, Nat.max_comm])).1
    [1, 2] [((2, 1), (7, 7)), ((1, 2), (7, 7))] (by with_unfolding_all rfl)
    1 2 (by decide) (by decide) (by decide),
   (c5_reserve_orientation univFlat (fun _ _ => 7) (fun _ _ _ => rfl)
      (by intro x y; simp [univFlat, pairCode, Nat.min_comm, Nat.max_comm])).2
    1 2 (by decide)⟩

/-- Complete case analysis of one successful relaxation step: it leaves the state
unchanged, or performs the self-relaxation copy, or performs an edge update recording
the predecessor. -/
theorem relaxCell_cases (p : Providers) (cache : Cache) (tokens : List ℕ)
    (prevRow : List GoFloat) (input output : ℕ) (st st2 : LevelState)
    (h : relaxCell p cache tokens prevRow input output st = .ok st2) :
    (st2 = st) ∨
    (input = output ∧
      (st.row.getD output (.fin 0)).cmp (prevRow.getD input (.fin 0)) < 0 ∧
      st2 = { st with row := st.row.set output (prevRow.getD input (.fin 0)) }) ∨
    (input ≠ output ∧
      (prevRow.getD input (.fin 0)).cmp (.fin 0) ≠ 0 ∧
      ∃ rate out,
        hopRate p cache (tokens.getD input 0) (tokens.getD output 0)
          (prevRow.getD input (.fin 0)) = .ok rate ∧
        (prevRow.getD input (.fin 0)).mul rate = .ok out ∧
        0 < out.cmp (st.row.getD output (.fin 0)) ∧
        st2 = { row := st.row.set output out,
                pm := (tokens.getD output 0, tokens.getD input 0) :: st.pm }) := by
  unfold relaxCell at h
  by_cases heq : input = output
  · rw [if_pos heq] at h
    split at h
    · rename_i hc
      injection h with h2
      exact Or.inr (Or.inl ⟨heq, hc, h2.symm⟩)
    · injection h with h2
      exact Or.inl h2.symm
  · rw [if_neg heq] at h
    simp only at h
    by_cases hz : (prevRow.getD input (.fin 0)).cmp (.fin 0) = 0
    · rw [if_pos hz] at h
      injection h with h2
      exact Or.inl h2.symm
    · rw [if_neg hz] at h
      cases hr : hopRate p cache (tokens.getD input 0) (tokens.getD output 0)
          (prevRow.getD input (.fin 0)) with
      | error e => rw [hr] at h; cases h
      | ok rate =>
        simp only [hr] at h
        cases hm : (prevRow.getD input (.fin 0)).mul rate with
        | error e => rw [hm] at h; cases h
        | ok out =>
          simp only [hm] at h
          split at h
          · rename_i hc
            injection h with h2
            exact Or.inr (Or.inr ⟨heq, hz, rate, out, rfl, hm, hc, h2.symm⟩)
          · rename_i hc
            injection h with h2
            exact Or.inl h2.symm

/-- A relaxation step never shrinks the row: same length, pointwise no decrease. -/
theorem relaxCell_grow (p : Providers) (cache : Cache) (tokens : List ℕ)
    (prevRow : List GoFloat) (input output : ℕ) (st st2 : LevelState)
    (h : relaxCell p cache tokens prevRow input output st = .ok st2) :
    st2.row.length = st.row.length ∧
      ∀ k, (st.row.getD k (.fin 0)).val ≤ (st2.row.getD k (.fin 0)).val := by
  rcases relaxCell_cases p cache tokens prevRow input output st st2 h with
    h2 | ⟨heq, hc, h2⟩ | ⟨hneq, hz, rate, out, hr, hm, hc, h2⟩
  · subst h2
    exact ⟨rfl, fun k => le_refl _⟩
  · subst h2
    refine ⟨by simp [List.length_set], ?_⟩
    intro k
    show (st.row.getD k (.fin 0)).val ≤
      ((st.row.set output (prevRow.getD input (.fin 0))).getD k (.fin 0)).val
    by_cases hk : k = output
    · subst hk
      by_cases hlen : k < st.row.length
      · rw [getD_set_self _ _ _ hlen]
        exact le_of_lt ((GoFloat.cmp_lt_zero_iff _ _).mp (heq ▸ hc))
      · rw [List.set_eq_of_length_le (by omega)]
    · rw [getD_set_ne _ (fun he => hk he.symm)]
  · subst h2
    refine ⟨by simp [List.length_set], ?_⟩
    intro k
    show (st.row.getD k (.fin 0)).val ≤ ((st.row.set output out).getD k (.fin 0)).val
    by_cases hk : k = output
    · subst hk
      by_cases hlen : k < st.row.length
      · rw [getD_set_self _ _ _ hlen]
        exact le_of_lt ((GoFloat.cmp_pos_iff _ _).mp hc)
      · rw [List.set_eq_of_length_le (by omega)]
    · rw [getD_set_ne _ (fun he => hk he.symm)]

/-- After the self-relaxation cell (input = output = k) runs, the row holds at least the
previous level's value at k. -/
theorem relaxCell_self_ge (p : Providers) (cache : Cache) (tokens : List ℕ)
    (prevRow : List GoFloat) (k : ℕ) (st st2 : LevelState)
    (hk : k < st.row.length)
    (h : relaxCell p cache tokens prevRow k k st = .ok st2) :
    (prevRow.getD k (.fin 0)).val ≤ (st2.row.getD k (.fin 0)).val := by
  unfold relaxCell at h
  rw [if_pos rfl] at h
  split at h
  · injection h with h2
    rw [← h2]
    show (prevRow.getD k (.fin 0)).val ≤
      ((st.row.set k (prevRow.getD k (.fin 0))).getD k (.fin 0)).val
    rw [getD_set_self _ _ _ hk]
  · rename_i hc
    injection h with h2
    rw [← h2]
    exact not_lt.mp (fun hlt => hc ((GoFloat.cmp_lt_zero_iff _ _).mpr hlt))

/-- After the edge cell (input, output) with a non-zero carried amount runs with its
rate and product both defined, the row at output is at least the candidate product. -/
theorem relaxCell_candidate_le (p : Providers) (cache : Cache) (tokens : List ℕ)
    (prevRow : List GoFloat) (input output : ℕ) (st st2 : LevelState)
    (hneq : input ≠ output)
    (hnz : (prevRow.getD input (.fin 0)).cmp (.fin 0) ≠ 0)
    (rate out : GoFloat)
    (hrate : hopRate p cache (tokens.getD input 0) (tokens.getD output 0)
      (prevRow.getD input (.fin 0)) = .ok rate)
    (hmul : (prevRow.getD input (.fin 0)).mul rate = .ok out)
    (hout : output < st.row.length)
    (h : relaxCell p cache tokens prevRow input output st = .ok st2) :
    out.val ≤ (st2.row.getD output (.fin 0)).val := by
  unfold relaxCell at h
  rw [if_neg hneq] at h
  simp only [if_neg hnz, hrate, hmul] at h
  split at h
  · injection h with h2
    rw [← h2]
    show out.val ≤ ((st.row.set output out).getD output (.fin 0)).val
    rw [getD_set_self _ _ _ hout]
  · rename_i hc
    injection h with h2
    rw [← h2]
    exact not_lt.mp (fun hlt => hc ((GoFloat.cmp_pos_iff _ _).mpr hlt))

/-- A successful edge cell with a non-zero carried amount implies its rate and product
were both computed without aborting. -/
theorem relaxCell_edge_ok (p : Providers) (cache : Cache) (tokens : List ℕ)
    (prevRow : List GoFloat) (input output : ℕ) (st st2 : LevelState)
    (hneq : input ≠ output)
    (hnz : (prevRow.getD input (.fin 0)).cmp (.fin 0) ≠ 0)
    (h : relaxCell p cache tokens prevRow input output st = .ok st2) :
    ∃ rate out, hopRate p cache (tokens.getD input 0) (tokens.getD output 0)
        (prevRow.getD input (.fin 0)) = .ok rate ∧
      (prevRow.getD input (.fin 0)).mul rate = .ok out := by
  unfold relaxCell at h
  rw [if_neg hneq] at h
  simp only [if_neg hnz] at h
  cases hr : hopRate p cache (tokens.getD input 0) (tokens.getD output 0)
      (prevRow.getD input (.fin 0)) with
  | error e => rw [hr] at h; cases h
  | ok rate =>
    simp only [hr] at h
    cases hm : (prevRow.getD input (.fin 0)).mul rate with
    | error e => rw [hm] at h; cases h
    | ok out => exact ⟨rate, out, rfl, hm⟩

/-- getD into the initial all-zero row is zero at every index. -/
theorem getD_replicate_zero (n k : ℕ) :
    (List.replicate n (GoFloat.fin 0)).getD k (.fin 0) = .fin 0 := by
  simp [List.getD_eq_getElem?_getD, List.getElem?_replicate]
  split <;> rfl

/-- A completed hop level has a row of the same width as the token list. -/
theorem runLevel_row_length (p : Providers) (cache : Cache) (tokens : List ℕ)
    (prevRow : List GoFloat) (st : LevelState)
    (h : runLevel p cache tokens prevRow = .ok st) :
    st.row.length = tokens.length := by
  unfold runLevel at h
  refine exFold_inv (fun s => s.row.length = tokens.length) _
    (fun s i s2 _ hP hf => ?_) _ st (by simp) h
  exact exFold_inv (fun s => s.row.length = tokens.length) _
    (fun s j s2 _ hP2 hf2 =>
      (relaxCell_grow p cache tokens prevRow i j s s2 hf2).1.trans hP2)
    s s2 hP hf

/-- A completed hop level never loses value: the row dominates the previous row
pointwise (self-relaxation plus monotone updates). -/
theorem runLevel_mono (p : Providers) (cache : Cache) (tokens : List ℕ)
    (prevRow : List GoFloat) (st : LevelState)
    (h : runLevel p cache tokens prevRow = .ok st)
    (k : ℕ) (hk : k < tokens.length) :
    (prevRow.getD k (.fin 0)).val ≤ (st.row.getD k (.fin 0)).val := by
  unfold runLevel at h
  refine exFold_estab (fun s => s.row.length = tokens.length)
    (fun s => (prevRow.getD k (.fin 0)).val ≤ (s.row.getD k (.fin 0)).val)
    k _
    (fun s i s2 _ hP hf => exFold_inv (fun s => s.row.length = tokens.length) _
      (fun s j s2 _ hP2 hf2 =>
        (relaxCell_grow p cache tokens prevRow i j s s2 hf2).1.trans hP2)
      s s2 hP hf)
    (fun s i s2 _ hP hQ hf => exFold_inv
      (fun s3 => (prevRow.getD k (.fin 0)).val ≤ (s3.row.getD k (.fin 0)).val) _
      (fun s3 j s4 _ hQ2 hf2 =>
        hQ2.trans ((relaxCell_grow p cache tokens prevRow i j s3 s4 hf2).2 k))
      s s2 hQ hf)
    (fun s s2 hP hf => ?_)
    _ st (by simp) (List.mem_range.mpr hk) h
  -- the outer element k runs the inner loop, whose cell (k, k) self-relaxes
  refine exFold_estab (fun s => s.row.length = tokens.length)
    (fun s3 => (prevRow.getD k (.fin 0)).val ≤ (s3.row.getD k (.fin 0)).val)
    k _
    (fun s3 j s4 _ hP2 hf2 =>
      (relaxCell_grow p cache tokens prevRow k j s3 s4 hf2).1.trans hP2)
    (fun s3 j s4 _ hP2 hQ2 hf2 =>
      hQ2.trans ((relaxCell_grow p cache tokens prevRow k j s3 s4 hf2).2 k))
    (fun s3 s4 hP2 hf2 =>
      relaxCell_self_ge p cache tokens prevRow k s3 s4 (by omega) hf2)
    _ s2 hP (List.mem_range.mpr hk) hf

/-- A completed hop level dominates every defined edge candidate: if the carried amount
at the input index is non-zero and the edge rate and product are defined, the row at the
output index is at least the product. -/
theorem runLevel_ge_candidate (p : Providers) (cache : Cache) (tokens : List ℕ)
    (prevRow : List GoFloat) (st : LevelState)
    (h : runLevel p cache tokens prevRow = .ok st)
    (input output : ℕ) (hin : input < tokens.length) (hout : output < tokens.length)
    (hneq : input ≠ output)
    (hnz : (prevRow.getD input (.fin 0)).cmp (.fin 0) ≠ 0)
    (rate out : GoFloat)
    (hrate : hopRate p cache (tokens.getD input 0) (tokens.getD output 0)
      (prevRow.getD input (.fin 0)) = .ok rate)
    (hmul : (prevRow.getD input (.fin 0)).mul rate = .ok out) :
    out.val ≤ (st.row.getD output (.fin 0)).val := by
  unfold runLevel at h
  refine exFold_estab (fun s => s.row.length = tokens.length)
    (fun s => out.val ≤ (s.row.getD output (.fin 0)).val)
    input _
    (fun s i s2 _ hP hf => exFold_inv (fun s => s.row.length = tokens.length) _
      (fun s j s2 _ hP2 hf2 =>
        (relaxCell_grow p cache tokens prevRow i j s s2 hf2).1.trans hP2)
      s s2 hP hf)
    (fun s i s2 _ hP hQ hf => exFold_inv
      (fun s3 => out.val ≤ (s3.row.getD output (.fin 0)).val) _
      (fun s3 j s4 _ hQ2 hf2 =>
        hQ2.trans ((relaxCell_grow p cache tokens prevRow i j s3 s4 hf2).2 output))
      s s2 hQ hf)
    (fun s s2 hP hf => ?_)
    _ st (by simp) (List.mem_range.mpr hin) h
  refine exFold_estab (fun s => s.row.length = tokens.length)
    (fun s3 => out.val ≤ (s3.row.getD output (.fin 0)).val)
    output _
    (fun s3 j s4 _ hP2 hf2 =>
      (relaxCell_grow p cache tokens prevRow input j s3 s4 hf2).1.trans hP2)
    (fun s3 j s4 _ hP2 hQ2 hf2 =>
      hQ2.trans ((relaxCell_grow p cache tokens prevRow input j s3 s4 hf2).2 output))
    (fun s3 s4 hP2 hf2 =>
      relaxCell_candidate_le p cache tokens prevRow input output s3 s4 hneq hnz
        rate out hrate hmul (by omega) hf2)
    _ s2 hP (List.mem_range.mpr hout) hf

/-- In a completed hop level, every edge cell with a non-zero carried amount had its
rate and product computed without aborting. -/
theorem runLevel_edge_ok (p : Providers) (cache : Cache) (tokens : List ℕ)
    (prevRow : List GoFloat) (st : LevelState)
    (h : runLevel p cache tokens prevRow = .ok st)
    (input output : ℕ) (hin : input < tokens.length) (hout : output < tokens.length)
    (hneq : input ≠ output)
    (hnz : (prevRow.getD input (.fin 0)).cmp (.fin 0) ≠ 0) :
    ∃ rate out, hopRate p cache (tokens.getD input 0) (tokens.getD output 0)
        (prevRow.getD input (.fin 0)) = .ok rate ∧
      (prevRow.getD input (.fin 0)).mul rate = .ok out := by
  unfold runLevel at h
  refine exFold_estab (fun _ => True)
    (fun _ => ∃ rate out, hopRate p cache (tokens.getD input 0) (tokens.getD output 0)
        (prevRow.getD input (.fin 0)) = .ok rate ∧
      (prevRow.getD input (.fin 0)).mul rate = .ok out)
    input _
    (fun _ _ _ _ _ _ => trivial)
    (fun _ _ _ _ _ hQ _ => hQ)
    (fun s s2 _ hf => ?_)
    _ st trivial (List.mem_range.mpr hin) h
  refine exFold_estab (fun _ => True)
    (fun _ => ∃ rate out, hopRate p cache (tokens.getD input 0) (tokens.getD output 0)
        (prevRow.getD input (.fin 0)) = .ok rate ∧
      (prevRow.getD input (.fin 0)).mul rate = .ok out)
    output _
    (fun _ _ _ _ _ _ => trivial)
    (fun _ _ _ _ _ hQ _ => hQ)
    (fun s3 s4 _ hf2 =>
      relaxCell_edge_ok p cache tokens prevRow input output s3 s4 hneq hnz hf2)
    _ s2 trivial (List.mem_range.mpr hout) hf

/-- A completed hop level over a nonnegative previous row has a nonnegative row: every
update writes either a copied previous value or a strictly larger value. -/
theorem runLevel_nonneg (p : Providers) (cache : Cache) (tokens : List ℕ)
    (prevRow : List GoFloat) (st : LevelState)
    (hprev : ∀ k, (GoFloat.fin 0).val ≤ (prevRow.getD k (.fin 0)).val)
    (h : runLevel p cache tokens prevRow = .ok st) :
    ∀ k, (GoFloat.fin 0).val ≤ (st.row.getD k (.fin 0)).val := by
  have hcell : ∀ (i j : ℕ) (s s2 : LevelState),
      (∀ k, (GoFloat.fin 0).val ≤ (s.row.getD k (.fin 0)).val) →
      relaxCell p cache tokens prevRow i j s = .ok s2 →
      ∀ k, (GoFloat.fin 0).val ≤ (s2.row.getD k (.fin 0)).val := by
    intro i j s s2 hs hf k
    exact (hs k).trans ((relaxCell_grow p cache tokens prevRow i j s s2 hf).2 k)
  unfold runLevel at h
  refine exFold_inv (fun s => ∀ k, (GoFloat.fin 0).val ≤ (s.row.getD k (.fin 0)).val) _
    (fun s i s2 _ hP hf => exFold_inv
      (fun s3 => ∀ k, (GoFloat.fin 0).val ≤ (s3.row.getD k (.fin 0)).val) _
      (fun s3 j s4 _ hP2 hf2 => hcell i j s3 s4 hP2 hf2) s s2 hP hf)
    _ st (fun k => by rw [getD_replicate_zero]) h

/-- Predecessor-map characterization of a completed hop level: every in-range index
holds the zero it started with, a value copied from the previous row, or an edge update
whose input the predecessor map records under the output token, with the recorded row
value equal to the recorded candidate product. -/
theorem runLevel_pm_char (p : Providers) (cache : Cache) (tokens : List ℕ)
    (prevRow : List GoFloat) (st : LevelState)
    (hnd : tokens.Nodup)
    (h : runLevel p cache tokens prevRow = .ok st) :
    ∀ j, j < tokens.length →
      st.row.getD j (.fin 0) = .fin 0 ∨
      st.row.getD j (.fin 0) = prevRow.getD j (.fin 0) ∨
      (∃ iu, iu < tokens.length ∧ iu ≠ j ∧
        alookup st.pm (tokens.getD j 0) = some (tokens.getD iu 0) ∧
        (prevRow.getD iu (.fin 0)).cmp (.fin 0) ≠ 0 ∧
        ∃ rate, hopRate p cache (tokens.getD iu 0) (tokens.getD j 0)
            (prevRow.getD iu (.fin 0)) = .ok rate ∧
          (prevRow.getD iu (.fin 0)).mul rate = .ok (st.row.getD j (.fin 0))) := by
  set n := tokens.length with hn
  set K : LevelState → Prop := fun s =>
    s.row.length = n ∧ ∀ j, j < n →
      s.row.getD j (.fin 0) = .fin 0 ∨
      s.row.getD j (.fin 0) = prevRow.getD j (.fin 0) ∨
      (∃ iu, iu < n ∧ iu ≠ j ∧
        alookup s.pm (tokens.getD j 0) = some (tokens.getD iu 0) ∧
        (prevRow.getD iu (.fin 0)).cmp (.fin 0) ≠ 0 ∧
        ∃ rate, hopRate p cache (tokens.getD iu 0) (tokens.getD j 0)
            (prevRow.getD iu (.fin 0)) = .ok rate ∧
          (prevRow.getD iu (.fin 0)).mul rate = .ok (s.row.getD j (.fin 0))) with hKdef
  have hcell : ∀ (i j2 : ℕ), i < n → j2 < n → ∀ (s s2 : LevelState),
      K s → relaxCell p cache tokens prevRow i j2 s = .ok s2 → K s2 := by
    intro i j2 hi hj2 s s2 hK hf
    obtain ⟨hlen, hKs⟩ := hK
    rcases relaxCell_cases p cache tokens prevRow i j2 s s2 hf with
      h2 | ⟨heq, hc, h2⟩ | ⟨hneq, hz, rate, out, hr, hm, hc, h2⟩
    · subst h2; exact ⟨hlen, hKs⟩
    · subst h2
      refine ⟨by simpa using hlen, ?_⟩
      intro j hj
      by_cases hjj : j = j2
      · subst hjj
        right; left
        show (s.row.set j (prevRow.getD i (.fin 0))).getD j (.fin 0) = _
        rw [getD_set_self _ _ _ (by omega), heq]
      · have hrow : (s.row.set j2 (prevRow.getD i (.fin 0))).getD j (.fin 0)
            = s.row.getD j (.fin 0) := getD_set_ne _ (fun he => hjj he.symm) _ _
        rcases hKs j hj with h3 | h3 | ⟨iu, hiu1, hiu2, hiu3, hiu4, rate, hiu5, hiu6⟩
        · left; rw [hrow]; exact h3
        · right; left; rw [hrow]; exact h3
        · right; right
          exact ⟨iu, hiu1, hiu2, hiu3, hiu4, rate, hiu5, by rw [hrow]; exact hiu6⟩
    · subst h2
      refine ⟨by simpa using hlen, ?_⟩
      intro j hj
      by_cases hjj : j = j2
      · subst hjj
        right; right
        refine ⟨i, hi, hneq, ?_, hz, rate, hr, ?_⟩
        · show alookup ((tokens.getD j 0, tokens.getD i 0) :: s.pm) (tokens.getD j 0) = _
          simp [alookup]
        · show _ = Except.ok ((s.row.set j out).getD j (.fin 0))
          rw [getD_set_self _ _ _ (by omega)]
          exact hm
      · have hrow : (s.row.set j2 out).getD j (.fin 0) = s.row.getD j (.fin 0) :=
          getD_set_ne _ (fun he => hjj he.symm) _ _
        have hkey : tokens.getD j2 0 ≠ tokens.getD j 0 := by
          intro he
          exact hjj (nodup_getD_inj tokens hnd (by omega) (by omega) he).symm
        rcases hKs j hj with h3 | h3 | ⟨iu, hiu1, hiu2, hiu3, hiu4, rate2, hiu5, hiu6⟩
        · left; rw [hrow]; exact h3
        · right; left; rw [hrow]; exact h3
        · right; right
          refine ⟨iu, hiu1, hiu2, ?_, hiu4, rate2, hiu5, by rw [hrow]; exact hiu6⟩
          show alookup ((tokens.getD j2 0, tokens.getD i 0) :: s.pm) (tokens.getD j 0) = _
          simp only [alookup, if_neg hkey]
          exact hiu3
  unfold runLevel at h
  have hfinal : K st := by
    refine exFold_inv K _
      (fun s i s2 hi hP hf => exFold_inv K _
        (fun s3 j2 s4 hj2 hP2 hf2 =>
          hcell i j2 (List.mem_range.mp hi) (List.mem_range.mp hj2) s3 s4 hP2 hf2)
        s s2 hP hf)
      _ st ⟨by simp, fun j hj => Or.inl (getD_replicate_zero _ _)⟩ h
  exact hfinal.2

/-- Value order between finite values is the rational order. -/
theorem GoFloat.val_fin_le_iff (x y : ℚ) :
    (GoFloat.fin x).val ≤ (GoFloat.fin y).val ↔ x ≤ y := by
  simp only [GoFloat.val]
  exact_mod_cast Iff.rfl

/-- Strict value order between finite values is the strict rational order. -/
theorem GoFloat.val_fin_lt_iff (x y : ℚ) :
    (GoFloat.fin x).val < (GoFloat.fin y).val ↔ x < y := by
  simp only [GoFloat.val]
  exact_mod_cast Iff.rfl

/-- Every finite value is below plus infinity. -/
theorem GoFloat.val_fin_lt_pinf (x : ℚ) : (GoFloat.fin x).val < GoFloat.pinf.val := by
  simp only [GoFloat.val]
  exact_mod_cast WithTop.coe_lt_top x

/-- Plus infinity is the top value. -/
theorem GoFloat.le_val_pinf (a : GoFloat) : a.val ≤ GoFloat.pinf.val := by
  cases a with
  | fin x => exact le_of_lt (GoFloat.val_fin_lt_pinf x)
  | pinf => exact le_refl _
  | ninf => exact bot_le

/-- Minus infinity is the bottom value. -/
theorem GoFloat.ninf_val_le (a : GoFloat) : GoFloat.ninf.val ≤ a.val := bot_le

/-- A nonnegative value is not minus infinity. -/
theorem GoFloat.not_nonneg_ninf : ¬ ((GoFloat.fin 0).val ≤ GoFloat.ninf.val) := by
  simp only [GoFloat.val, le_bot_iff]
  simp

/-- Multiplication cancellation for the walk argument: if two successful products with
the same rate compare strictly, the first factors compare strictly, provided both first
factors are nonnegative and the larger product is positive. -/
theorem GoFloat.mul_lt_cancel (a b r va vb : GoFloat)
    (ha : (GoFloat.fin 0).val ≤ a.val) (hb : (GoFloat.fin 0).val ≤ b.val)
    (hva : a.mul r = .ok va) (hvb : b.mul r = .ok vb)
    (hlt : vb.val < va.val) (hpos : (GoFloat.fin 0).val < va.val) :
    b.val < a.val := by
  cases a with
  | ninf => exact absurd ha GoFloat.not_nonneg_ninf
  | fin x =>
    have hx : (0 : ℚ) ≤ x := (GoFloat.val_fin_le_iff 0 x).mp ha
    cases b with
    | ninf => exact absurd hb GoFloat.not_nonneg_ninf
    | fin y =>
      have hy : (0 : ℚ) ≤ y := (GoFloat.val_fin_le_iff 0 y).mp hb
      cases r with
      | fin q =>
        simp only [GoFloat.mul] at hva hvb
        injection hva with hva2
        injection hvb with hvb2
        subst hva2; subst hvb2
        have hpos2 : (0 : ℚ) < x * q := (GoFloat.val_fin_lt_iff 0 (x * q)).mp hpos
        have hlt2 : y * q < x * q := (GoFloat.val_fin_lt_iff (y * q) (x * q)).mp hlt
        rcases mul_pos_iff.mp hpos2 with ⟨hx1, hq1⟩ | ⟨hx1, _⟩
        · exact (GoFloat.val_fin_lt_iff y x).mpr ((mul_lt_mul_right hq1).mp hlt2)
        · exact absurd hx1 (not_lt.mpr hx)
      | pinf =>
        simp only [GoFloat.mul] at hva hvb
        split at hva
        · cases hva
        · split at hva
          · injection hva with hva2
            subst hva2
            split at hvb
            · cases hvb
            · split at hvb
              · injection hvb with hvb2
                subst hvb2
                exact absurd hlt (lt_irrefl _)
              · rename_i hy0 hy1
                exact absurd (lt_of_le_of_ne hy (Ne.symm hy0)) hy1
          · rename_i hx0 hx1
            exact absurd (lt_of_le_of_ne hx (Ne.symm hx0)) hx1
      | ninf =>
        simp only [GoFloat.mul] at hva
        split at hva
        · cases hva
        · split at hva
          · injection hva with hva2
            subst hva2
            exact absurd hpos (not_lt.mpr (GoFloat.ninf_val_le _))
          · rename_i hx0 hx1
            exact absurd (lt_of_le_of_ne hx (Ne.symm hx0)) hx1
    | pinf =>
      cases r with
      | fin q =>
        simp only [GoFloat.mul] at hva hvb
        injection hva with hva2
        subst hva2
        split at hvb
        · cases hvb
        · split at hvb
          · injection hvb with hvb2
            subst hvb2
            exact absurd hlt (not_lt.mpr (GoFloat.le_val_pinf _))
          · injection hvb with hvb2
            subst hvb2
            rename_i hq0 hq1
            have hpos2 : (0 : ℚ) < x * q := (GoFloat.val_fin_lt_iff 0 (x * q)).mp hpos
            rcases mul_pos_iff.mp hpos2 with ⟨_, hq2⟩ | ⟨hx2, _⟩
            · exact absurd hq2 hq1
            · exact absurd hx2 (not_lt.mpr hx)
      | pinf =>
        simp only [GoFloat.mul] at hva hvb
        injection hvb with hvb2
        subst hvb2
        split at hva
        · cases hva
        · split at hva
          · injection hva with hva2
            subst hva2
            exact absurd hlt (lt_irrefl _)
          · rename_i hx0 hx1
            exact absurd (lt_of_le_of_ne hx (Ne.symm hx0)) hx1
      | ninf =>
        simp only [GoFloat.mul] at hva
        split at hva
        · cases hva
        · split at hva
          · injection hva with hva2
            subst hva2
            exact absurd hpos (not_lt.mpr (GoFloat.ninf_val_le _))
          · rename_i hx0 hx1
            exact absurd (lt_of_le_of_ne hx (Ne.symm hx0)) hx1
  | pinf =>
    cases b with
    | ninf => exact absurd hb GoFloat.not_nonneg_ninf
    | fin y =>
      have hy : (0 : ℚ) ≤ y := (GoFloat.val_fin_le_iff 0 y).mp hb
      cases r with
      | fin q =>
        simp only [GoFloat.mul] at hva
        split at hva
        · cases hva
        · split at hva
          · exact GoFloat.val_fin_lt_pinf y
          · injection hva with hva2
            subst hva2
            exact absurd hpos (not_lt.mpr (GoFloat.ninf_val_le _))
      | pinf =>
        simp only [GoFloat.mul] at hva hvb
        injection hva with hva2
        subst hva2
        split at hvb
        · cases hvb
        · split at hvb
          · injection hvb with hvb2
            subst hvb2
            exact absurd hlt (lt_irrefl _)
          · rename_i hy0 hy1
            exact absurd (lt_of_le_of_ne hy (Ne.symm hy0)) hy1
      | ninf =>
        simp only [GoFloat.mul] at hva
        injection hva with hva2
        subst hva2
        exact absurd hpos (not_lt.mpr (GoFloat.ninf_val_le _))
    | pinf =>
      cases r with
      | fin q =>
        simp only [GoFloat.mul] at hva hvb
        split at hva
        · cases hva
        · split at hva
          · rename_i hq0 hq1
            injection hva with hva2
            subst hva2
            rw [if_neg hq0, if_pos hq1] at hvb
            injection hvb with hvb2
            subst hvb2
            exact absurd hlt (lt_irrefl _)
          · injection hva with hva2
            subst hva2
            exact absurd hpos (not_lt.mpr (GoFloat.ninf_val_le _))
      | pinf =>
        simp only [GoFloat.mul] at hva hvb
        injection hva with hva2
        injection hvb with hvb2
        subst hva2; subst hvb2
        exact absurd hlt (lt_irrefl _)
      | ninf =>
        simp only [GoFloat.mul] at hva
        injection hva with hva2
        subst hva2
        exact absurd hpos (not_lt.mpr (GoFloat.ninf_val_le _))

/-- Multiplying one by any value gives that value back without aborting. -/
theorem GoFloat.one_mul_ok (r : GoFloat) : (GoFloat.fin 1).mul r = .ok r := by
  cases r with
  | fin q => simp [GoFloat.mul]
  | pinf => norm_num [GoFloat.mul]
  | ninf => norm_num [GoFloat.mul]

/-- toEighteenDecimals never reads its address argument. -/
theorem toEighteenDecimals_addr (t t2 : ℕ) (a : ℤ) (d : ℕ) :
    toEighteenDecimals t a d = toEighteenDecimals t2 a d := rfl

/-- hopRate never reads the carried amount (calculatePrice ignores its inputAmount). -/
theorem hopRate_amount_irrel (p : Providers) (cache : Cache) (a b : ℕ)
    (amt1 amt2 : GoFloat) :
    hopRate p cache a b amt1 = hopRate p cache a b amt2 := by
  unfold hopRate
  cases orientReserves cache a b with
  | error e => rfl
  | ok pr => rcases pr with ⟨rIn, rOut⟩; rfl

/-- Over a successfully populated cache whose pair resolution is argument-order
independent, the DP edge rate agrees with the direct quote for every pair of distinct
member tokens and every carried amount. -/
theorem hopRate_consistent (p : Providers) (tokens : List ℕ) (cache : Cache) (a b : ℕ)
    (hab : a ≠ b) (ha : a ∈ tokens) (hb : b ∈ tokens)
    (hsym : ∀ x y, (p.getTradingPair x y).1 = (p.getTradingPair y x).1)
    (hpop : populateCache p tokens = .ok cache) (amt : GoFloat) :
    hopRate p cache a b amt = GetExchangeRate p a b := by
  rcases Nat.lt_or_ge a b with hlt | hge
  · obtain ⟨pa, rA, rB, hg, hr, hl⟩ := populateCache_lookup p tokens cache hpop a b ha hb hab
    rw [if_neg (by omega : ¬ b < a)] at hl
    have hpa : (p.getTradingPair a b).1 = pa := by rw [hg]
    unfold hopRate orientReserves
    rw [if_pos hlt]
    simp only [hl]
    unfold GetExchangeRate
    rw [if_neg hab]
    simp only [hpa, hr]
    rw [if_pos hlt]
    rfl
  · have hlt : b < a := by omega
    obtain ⟨pa, rA, rB, hg, hr, hl⟩ :=
      populateCache_lookup p tokens cache hpop b a hb ha (Ne.symm hab)
    rw [if_neg (by omega : ¬ a < b)] at hl
    have hpa : (p.getTradingPair a b).1 = pa := by rw [hsym a b, hg]
    unfold hopRate orientReserves
    rw [if_neg (by omega : ¬ a < b)]
    simp only [hl]
    unfold GetExchangeRate
    rw [if_neg hab]
    simp only [hpa, hr]
    rw [if_neg (by omega : ¬ a < b), if_pos hlt]
    rfl

/-- The path walk only appends: the accumulator is a prefix of the result. -/
theorem walkPath_acc (pms : List (List (ℕ × ℕ))) :
    ∀ (c cur : ℕ) (acc : List ℕ),
      walkPath pms c cur acc = acc ++ walkPath pms c cur [] := by
  intro c
  induction c with
  | zero => intro cur acc; simp [walkPath]
  | succ m ih =>
    intro cur acc
    cases hl : alookup (pms.getD m []) cur with
    | some t =>
      simp only [walkPath, hl, List.nil_append]
      rw [ih t (acc ++ [cur]), ih t [cur], List.append_assoc]
    | none =>
      simp only [walkPath, hl, List.nil_append]

/-- getD into a reversed list reads the mirrored index. -/
theorem getD_reverse {α : Type} (w : List α) (i : ℕ) (d : α) (h : i < w.length) :
    w.reverse.getD i d = w.getD (w.length - 1 - i) d := by
  rw [List.getD_eq_getElem _ _ (by simpa using h), List.getElem_reverse,
    List.getD_eq_getElem _ _ (by omega)]

/-- The hop-level loop never decreases the running best destination value. -/
theorem dpLoop_best_le (p : Providers) (cache : Cache) (tokens : List ℕ) (destIdx : ℕ) :
    ∀ (rem level : ℕ) (prevRow : List GoFloat) (rows : List (List GoFloat))
      (pms : List (List (ℕ × ℕ))) (best : GoFloat) (nh : ℕ) (res : DPResult),
      dpLoop p cache tokens destIdx rem level prevRow rows pms best nh = .ok res →
      best.val ≤ res.bestPrice.val := by
  intro rem
  induction rem with
  | zero =>
    intro level prevRow rows pms best nh res h
    simp only [dpLoop] at h
    injection h with h2
    rw [← h2]
  | succ m ih =>
    intro level prevRow rows pms best nh res h
    simp only [dpLoop] at h
    cases hrl : runLevel p cache tokens prevRow with
    | error e =>
      simp only [hrl] at h
      exact Except.noConfusion h
    | ok st =>
      simp only [hrl] at h
      by_cases hc : 0 ≤ best.cmp (st.row.getD destIdx (.fin 0))
      · rw [if_pos hc] at h
        injection h with h2
        rw [← h2]
      · rw [if_neg hc] at h
        refine le_trans ?_ (ih _ _ _ _ _ _ _ h)
        exact le_of_lt ((GoFloat.cmp_lt_zero_iff _ _).mp (by omega))

/-- With the same starting state, a larger hop budget yields a best destination value
at least as large (the loop either breaks at the same shared level or runs further,
only improving). -/
theorem dpLoop_le_of_le_rem (p : Providers) (cache : Cache) (tokens : List ℕ)
    (destIdx : ℕ) :
    ∀ (rem1 rem2 level : ℕ) (prevRow : List GoFloat) (rows : List (List GoFloat))
      (pms : List (List (ℕ × ℕ))) (best : GoFloat) (nh : ℕ) (res1 res2 : DPResult),
      rem1 ≤ rem2 →
      dpLoop p cache tokens destIdx rem1 level prevRow rows pms best nh = .ok res1 →
      dpLoop p cache tokens destIdx rem2 level prevRow rows pms best nh = .ok res2 →
      res1.bestPrice.val ≤ res2.bestPrice.val := by
  intro rem1
  induction rem1 with
  | zero =>
    intro rem2 level prevRow rows pms best nh res1 res2 hle h1 h2
    simp only [dpLoop] at h1
    injection h1 with h1b
    rw [← h1b]
    exact dpLoop_best_le p cache tokens destIdx rem2 level prevRow rows pms best nh res2 h2
  | succ m ih =>
    intro rem2 level prevRow rows pms best nh res1 res2 hle h1 h2
    obtain ⟨m2, rfl⟩ : ∃ m2, rem2 = m2 + 1 := ⟨rem2 - 1, by omega⟩
    simp only [dpLoop] at h1 h2
    cases hrl : runLevel p cache tokens prevRow with
    | error e =>
      simp only [hrl] at h1
      exact Except.noConfusion h1
    | ok st =>
      simp only [hrl] at h1 h2
      by_cases hc : 0 ≤ best.cmp (st.row.getD destIdx (.fin 0))
      · rw [if_pos hc] at h1 h2
        injection h1 with h1b
        injection h2 with h2b
        rw [← h1b, ← h2b]
      · rw [if_neg hc] at h1 h2
        exact ih m2 _ _ _ _ _ _ res1 res2 (by omega) h1 h2

/-- Structure of a completed hop-level loop run: the table rows only grow, every level
above 0 is produced by one runLevel call from the level below, and when numHops is
nonzero it is at least 2, indexes into the table, marks a strict improvement of the
destination value over the previous level, and the bestPrice equals the destination
value of the row it indexes. -/
theorem dpLoop_chain (p : Providers) (cache : Cache) (tokens : List ℕ) (destIdx : ℕ) :
    ∀ (rem level : ℕ) (prevRow : List GoFloat) (rows : List (List GoFloat))
      (pms : List (List (ℕ × ℕ))) (best : GoFloat) (nh : ℕ) (res : DPResult),
      1 ≤ level → rows.length = level → pms.length = level →
      prevRow = rows.getD (level - 1) [] →
      (∀ t, 1 ≤ t → t < level →
        runLevel p cache tokens (rows.getD (t - 1) []) =
          .ok ⟨rows.getD t [], pms.getD t []⟩) →
      best = (rows.getD (level - 1) []).getD destIdx (.fin 0) →
      (nh = 0 ∨ (2 ≤ nh ∧ nh = level ∧
        (((rows.getD (nh - 2) []).getD destIdx (.fin 0)).val <
          ((rows.getD (nh - 1) []).getD destIdx (.fin 0)).val))) →
      dpLoop p cache tokens destIdx rem level prevRow rows pms best nh = .ok res →
      (res.rows.length = res.pms.length ∧
        rows.length ≤ res.rows.length ∧
        (∀ t, t < rows.length →
          res.rows.getD t [] = rows.getD t [] ∧ res.pms.getD t [] = pms.getD t []) ∧
        (∀ t, 1 ≤ t → t < res.rows.length →
          runLevel p cache tokens (res.rows.getD (t - 1) []) =
            .ok ⟨res.rows.getD t [], res.pms.getD t []⟩) ∧
        (res.numHops = 0 ∨ (2 ≤ res.numHops ∧ res.numHops ≤ res.rows.length ∧
          (((res.rows.getD (res.numHops - 2) []).getD destIdx (.fin 0)).val <
            ((res.rows.getD (res.numHops - 1) []).getD destIdx (.fin 0)).val) ∧
          (res.rows.getD (res.numHops - 1) []).getD destIdx (.fin 0) = res.bestPrice))) := by
  intro rem
  induction rem with
  | zero =>
    intro level prevRow rows pms best nh res h1lev hrlen hplen hprev hchain hbest hnh h
    simp only [dpLoop] at h
    injection h with h2
    subst h2
    dsimp only
    refine ⟨by omega, le_refl _, fun t ht => ⟨rfl, rfl⟩, ?_, ?_⟩
    · intro t ht1 ht2
      exact hchain t ht1 (by omega)
    · rcases hnh with h0 | ⟨h2nh, hnheq, himp⟩
      · exact Or.inl h0
      · refine Or.inr ⟨h2nh, by omega, himp, ?_⟩
        rw [hbest, hnheq]
  | succ m ih =>
    intro level prevRow rows pms best nh res h1lev hrlen hplen hprev hchain hbest hnh h
    simp only [dpLoop] at h
    cases hrl : runLevel p cache tokens prevRow with
    | error e =>
      simp only [hrl] at h
      exact Except.noConfusion h
    | ok st =>
      simp only [hrl] at h
      have hrowlast : (rows ++ [st.row]).getD rows.length [] = st.row :=
        getD_concat_length rows st.row []
      have hpmlast : (pms ++ [st.pm]).getD rows.length [] = st.pm := by
        rw [show rows.length = pms.length from by omega]
        exact getD_concat_length pms st.pm []
      have hchain2 : ∀ t, 1 ≤ t → t < level + 1 →
          runLevel p cache tokens ((rows ++ [st.row]).getD (t - 1) []) =
            .ok ⟨(rows ++ [st.row]).getD t [], (pms ++ [st.pm]).getD t []⟩ := by
        intro t ht1 ht2
        rcases Nat.lt_or_ge t level with hta | htb
        · rw [getD_append_left rows [st.row] (by omega) [],
            getD_append_left rows [st.row] (by omega) [],
            getD_append_left pms [st.pm] (by omega) []]
          exact hchain t ht1 hta
        · have hteq : t = rows.length := by omega
          subst hteq
          rw [getD_append_left rows [st.row] (by omega) [], hrowlast, hpmlast,
            show rows.length - 1 = level - 1 from by omega, ← hprev]
          exact hrl
      by_cases hc : 0 ≤ best.cmp (st.row.getD destIdx (.fin 0))
      · rw [if_pos hc] at h
        injection h with h2
        subst h2
        dsimp only
        refine ⟨by simp [hrlen, hplen], ?_, ?_, ?_, ?_⟩
        · simp only [List.length_append, List.length_cons, List.length_nil]
          omega
        · intro t ht
          exact ⟨getD_append_left rows [st.row] ht [],
            getD_append_left pms [st.pm] (by omega) []⟩
        · intro t ht1 ht2
          refine hchain2 t ht1 ?_
          simp only [List.length_append, List.length_cons, List.length_nil] at ht2
          omega
        · rcases hnh with h0 | ⟨h2nh, hnheq, himp⟩
          · exact Or.inl h0
          · refine Or.inr ⟨h2nh, ?_, ?_, ?_⟩
            · simp only [List.length_append, List.length_cons, List.length_nil]
              omega
            · rw [getD_append_left rows [st.row] (by omega) [],
                getD_append_left rows [st.row] (by omega) []]
              exact himp
            · rw [getD_append_left rows [st.row] (by omega) [], hbest, hnheq]
      · rw [if_neg hc] at h
        have hlt : best.val < (st.row.getD destIdx (.fin 0)).val :=
          (GoFloat.cmp_lt_zero_iff _ _).mp (by omega)
        have hprev2 : st.row = (rows ++ [st.row]).getD (level + 1 - 1) [] := by
          rw [show level + 1 - 1 = rows.length from by omega]
          exact hrowlast.symm
        have hbest2 : st.row.getD destIdx (.fin 0) =
            ((rows ++ [st.row]).getD (level + 1 - 1) []).getD destIdx (.fin 0) := by
          rw [← hprev2]
        have hnh2 : level + 1 = 0 ∨ (2 ≤ level + 1 ∧ level + 1 = level + 1 ∧
            ((((rows ++ [st.row]).getD (level + 1 - 2) []).getD destIdx (.fin 0)).val <
              (((rows ++ [st.row]).getD (level + 1 - 1) []).getD destIdx (.fin 0)).val)) := by
          refine Or.inr ⟨by omega, rfl, ?_⟩
          rw [show level + 1 - 2 = level - 1 from by omega,
            getD_append_left rows [st.row] (by omega) [], ← hbest2, ← hbest]
          exact hlt
        obtain ⟨c1, c2, c3, c4, c5⟩ := ih (level + 1) st.row (rows ++ [st.row])
          (pms ++ [st.pm]) (st.row.getD destIdx (.fin 0)) (level + 1) res
          (by omega)
          (by simp [hrlen])
          (by simp [hplen])
          hprev2 hchain2 hbest2 hnh2 h
        refine ⟨c1, ?_, ?_, c4, c5⟩
        · refine le_trans ?_ c2
          simp only [List.length_append, List.length_cons, List.length_nil]
          omega
        · intro t ht
          have hlt2 : t < (rows ++ [st.row]).length := by
            simp only [List.length_append, List.length_cons, List.length_nil]
            omega
          obtain ⟨d1, d2⟩ := c3 t hlt2
          rw [d1, d2, getD_append_left rows [st.row] ht [],
            getD_append_left pms [st.pm] (by omega) []]
          exact ⟨rfl, rfl⟩

/-- A successful multi-hop Route run exposes a successful hop-level loop with nonzero
numHops whose indexed table value is the returned rate and whose predecessor maps
reconstruct the returned path. -/
theorem Route_ok_elim (rp : ℕ → ℕ → Except GoErr GoFloat) (p : Providers)
    (pools : List Pool) (cache : Cache) (tIn tOut mh : ℕ) (rate : GoFloat)
    (path : List ℕ)
    (hne : tIn ≠ tOut) (h2 : 2 ≤ mh) (h5 : mh ≤ 5)
    (hpools : p.getPools = (pools, none))
    (hpop : populateCache p (buildTokens pools tIn tOut) = .ok cache)
    (hroute : Route rp p tIn tOut mh = .ok (rate, path)) :
    ∃ res : DPResult,
      dpLoop p cache (buildTokens pools tIn tOut)
          (goFindIndex (buildTokens pools tIn tOut) tOut).toNat mh 1
          ((List.replicate (buildTokens pools tIn tOut).length (GoFloat.fin 0)).set
            (goFindIndex (buildTokens pools tIn tOut) tIn).toNat (.fin 1))
          [((List.replicate (buildTokens pools tIn tOut).length (GoFloat.fin 0)).set
            (goFindIndex (buildTokens pools tIn tOut) tIn).toNat (.fin 1))]
          [[]] (.fin 0) 0 = .ok res ∧
      res.numHops ≠ 0 ∧
      rate = (res.rows.getD (res.numHops - 1) []).getD
        (goFindIndex (buildTokens pools tIn tOut) tOut).toNat (.fin 0) ∧
      path = (walkPath res.pms res.numHops
        ((buildTokens pools tIn tOut).getD
          (goFindIndex (buildTokens pools tIn tOut) tOut).toNat 0) []).reverse := by
  rw [Route_general rp p pools cache tIn tOut mh hne h2 h5 hpools hpop] at hroute
  cases hdp : dpLoop p cache (buildTokens pools tIn tOut)
      (goFindIndex (buildTokens pools tIn tOut) tOut).toNat mh 1
      ((List.replicate (buildTokens pools tIn tOut).length (GoFloat.fin 0)).set
        (goFindIndex (buildTokens pools tIn tOut) tIn).toNat (.fin 1))
      [((List.replicate (buildTokens pools tIn tOut).length (GoFloat.fin 0)).set
        (goFindIndex (buildTokens pools tIn tOut) tIn).toNat (.fin 1))]
      [[]] (.fin 0) 0 with
  | error e =>
    simp only [hdp] at hroute
    exact Except.noConfusion hroute
  | ok res =>
    simp only [hdp] at hroute
    by_cases hnh : res.numHops = 0
    · rw [if_pos hnh] at hroute
      exact Except.noConfusion hroute
    · rw [if_neg hnh] at hroute
      injection hroute with h2b
      injection h2b with hr hp
      exact ⟨res, rfl, hnh, hr.symm, hp.symm⟩

/-- The path walk over a table produced by chained hop levels: starting at any index
whose value strictly improved at level t, the walk emits exactly t + 1 tokens, starts
with that index's token, ends at the source token, and every emitted step is a pair of
distinct member tokens whose ordered key is present in the reserves cache. -/
theorem walkPath_spec (p : Providers) (cache : Cache) (tokens : List ℕ)
    (rows : List (List GoFloat)) (pms : List (List (ℕ × ℕ))) (srcIdx : ℕ) (L : ℕ)
    (hnd : tokens.Nodup) (hsrc : srcIdx < tokens.length)
    (hpop : populateCache p tokens = .ok cache)
    (hrow0 : rows.getD 0 [] =
      (List.replicate tokens.length (GoFloat.fin 0)).set srcIdx (.fin 1))
    (hpm0 : pms.getD 0 [] = [])
    (hchain : ∀ t, 1 ≤ t → t ≤ L →
      runLevel p cache tokens (rows.getD (t - 1) []) =
        .ok ⟨rows.getD t [], pms.getD t []⟩)
    (hnn : ∀ l k, (GoFloat.fin 0).val ≤ ((rows.getD l []).getD k (.fin 0)).val) :
    ∀ t, 1 ≤ t → t ≤ L → ∀ ic, ic < tokens.length →
      ((rows.getD (t - 1) []).getD ic (.fin 0)).val <
        ((rows.getD t []).getD ic (.fin 0)).val →
      ∃ l, walkPath pms (t + 1) (tokens.getD ic 0) [] = tokens.getD ic 0 :: l ∧
        l.length = t ∧
        (tokens.getD ic 0 :: l).getLast? = some (tokens.getD srcIdx 0) ∧
        ∀ i, i + 1 < t + 1 →
          (tokens.getD ic 0 :: l).getD i 0 ≠ (tokens.getD ic 0 :: l).getD (i + 1) 0 ∧
          ∃ rs, alookup cache ((tokens.getD ic 0 :: l).getD (i + 1) 0,
            (tokens.getD ic 0 :: l).getD i 0) = some rs := by
  have hstep : ∀ (c cur u : ℕ) (acc : List ℕ), alookup (pms.getD c []) cur = some u →
      walkPath pms (c + 1) cur acc = acc ++ cur :: walkPath pms c u [] := by
    intro c cur u acc hl
    simp only [walkPath, hl]
    rw [walkPath_acc pms c u (acc ++ [cur])]
    simp
  have hstop : ∀ (cur : ℕ) (acc : List ℕ), walkPath pms 1 cur acc = acc ++ [cur] := by
    intro cur acc
    simp only [walkPath, hpm0, alookup]
  intro t
  induction t with
  | zero =>
    intro ht1
    exact absurd ht1 (by omega)
  | succ s ih =>
    intro _ hsL ic hic himp
    have hcase := runLevel_pm_char p cache tokens (rows.getD s [])
      ⟨rows.getD (s + 1) [], pms.getD (s + 1) []⟩ hnd
      (hchain (s + 1) (by omega) hsL) ic hic
    dsimp only at hcase
    rcases hcase with h0 | hcopy | ⟨iu, hiu, hiune, hpm, hnz, rate, hrate, hmul⟩
    · rw [h0] at himp
      exact absurd (lt_of_le_of_lt (hnn s ic) himp) (lt_irrefl _)
    · rw [hcopy] at himp
      exact absurd himp (lt_irrefl _)
    · have hmemic : tokens.getD ic 0 ∈ tokens :=
        List.mem_iff_getElem.mpr ⟨ic, hic, (List.getD_eq_getElem tokens 0 hic).symm⟩
      have hmemiu : tokens.getD iu 0 ∈ tokens :=
        List.mem_iff_getElem.mpr ⟨iu, hiu, (List.getD_eq_getElem tokens 0 hiu).symm⟩
      have hne2 : tokens.getD iu 0 ≠ tokens.getD ic 0 :=
        fun he => hiune (nodup_getD_inj tokens hnd hiu hic he)
      have hconn : ∃ rs, alookup cache (tokens.getD iu 0, tokens.getD ic 0) = some rs := by
        obtain ⟨pa, rA, rB, _, _, hl⟩ :=
          populateCache_lookup p tokens cache hpop _ _ hmemiu hmemic hne2
        exact ⟨_, hl⟩
      rcases Nat.eq_zero_or_pos s with hs0 | hs1
      · subst hs0
        have hiusrc : iu = srcIdx := by
          by_contra hneq
          rw [hrow0, getD_set_ne _ (fun he => hneq he.symm) _ _,
            getD_replicate_zero] at hnz
          exact hnz ((GoFloat.cmp_eq_zero_iff _ _).mpr rfl)
        rw [hiusrc] at hpm hne2 hconn
        refine ⟨[tokens.getD srcIdx 0], ?_, rfl, by simp, ?_⟩
        · have hw1 := hstep (0 + 1) (tokens.getD ic 0) (tokens.getD srcIdx 0) [] hpm
          have hw2 := hstop (tokens.getD srcIdx 0) []
          rw [hw1, hw2]
          simp
        · intro i hi
          have hi0 : i = 0 := by omega
          subst hi0
          exact ⟨fun he => hne2 he.symm, hconn⟩
      · have himp2 : ((rows.getD (s - 1) []).getD iu (.fin 0)).val <
            ((rows.getD s []).getD iu (.fin 0)).val := by
          by_contra hcon
          push_neg at hcon
          have hmono := runLevel_mono p cache tokens (rows.getD (s - 1) [])
            ⟨rows.getD s [], pms.getD s []⟩ (hchain s (by omega) (by omega)) iu hiu
          have heq : (rows.getD (s - 1) []).getD iu (.fin 0) =
              (rows.getD s []).getD iu (.fin 0) :=
            GoFloat.val_inj (le_antisymm hmono hcon)
          have hnz2 : ((rows.getD (s - 1) []).getD iu (.fin 0)).cmp (.fin 0) ≠ 0 := by
            rw [heq]; exact hnz
          have hrate2 : hopRate p cache (tokens.getD iu 0) (tokens.getD ic 0)
              ((rows.getD (s - 1) []).getD iu (.fin 0)) = .ok rate := by
            rw [hopRate_amount_irrel p cache (tokens.getD iu 0) (tokens.getD ic 0)
              ((rows.getD (s - 1) []).getD iu (.fin 0))
              ((rows.getD s []).getD iu (.fin 0))]
            exact hrate
          have hmul2 : ((rows.getD (s - 1) []).getD iu (.fin 0)).mul rate
              = .ok ((rows.getD (s + 1) []).getD ic (.fin 0)) := by
            rw [heq]; exact hmul
          have hge := runLevel_ge_candidate p cache tokens (rows.getD (s - 1) [])
            ⟨rows.getD s [], pms.getD s []⟩ (hchain s (by omega) (by omega))
            iu ic hiu hic hiune hnz2 rate
            ((rows.getD (s + 1) []).getD ic (.fin 0)) hrate2 hmul2
          exact absurd (lt_of_le_of_lt hge himp) (lt_irrefl _)
        obtain ⟨l2, hw2, hlen2, hlast2, hcok2⟩ := ih (by omega) (by omega) iu hiu himp2
        refine ⟨tokens.getD iu 0 :: l2, ?_, by simp [hlen2], ?_, ?_⟩
        · have hw1 := hstep (s + 1) (tokens.getD ic 0) (tokens.getD iu 0) [] hpm
          rw [hw1, hw2]
          simp
        · rw [List.getLast?_cons_cons]
          exact hlast2
        · intro i hi
          cases i with
          | zero => exact ⟨fun he => hne2 he.symm, hconn⟩
          | succ j =>
            have hj : j + 1 < s + 1 := by omega
            have hfrom := hcok2 j hj
            simpa [List.getD_cons_succ] using hfrom

/-- dpLoop_chain specialized to the initial state Route passes to the hop-level loop. -/
theorem dpLoop_chain_init (p : Providers) (cache : Cache) (pools : List Pool)
    (tIn tOut mh : ℕ) (res : DPResult)
    (hne : tIn ≠ tOut)
    (hdp : dpLoop p cache (buildTokens pools tIn tOut)
        (goFindIndex (buildTokens pools tIn tOut) tOut).toNat mh 1
        ((List.replicate (buildTokens pools tIn tOut).length (GoFloat.fin 0)).set
          (goFindIndex (buildTokens pools tIn tOut) tIn).toNat (.fin 1))
        [((List.replicate (buildTokens pools tIn tOut).length (GoFloat.fin 0)).set
          (goFindIndex (buildTokens pools tIn tOut) tIn).toNat (.fin 1))]
        [[]] (.fin 0) 0 = .ok res) :
    (res.rows.length = res.pms.length ∧
      1 ≤ res.rows.length ∧
      (res.rows.getD 0 [] =
        (List.replicate (buildTokens pools tIn tOut).length (GoFloat.fin 0)).set
          (goFindIndex (buildTokens pools tIn tOut) tIn).toNat (.fin 1) ∧
        res.pms.getD 0 [] = []) ∧
      (∀ t, 1 ≤ t → t < res.rows.length →
        runLevel p cache (buildTokens pools tIn tOut) (res.rows.getD (t - 1) []) =
          .ok ⟨res.rows.getD t [], res.pms.getD t []⟩) ∧
      (res.numHops = 0 ∨ (2 ≤ res.numHops ∧ res.numHops ≤ res.rows.length ∧
        (((res.rows.getD (res.numHops - 2) []).getD
            (goFindIndex (buildTokens pools tIn tOut) tOut).toNat (.fin 0)).val <
          ((res.rows.getD (res.numHops - 1) []).getD
            (goFindIndex (buildTokens pools tIn tOut) tOut).toNat (.fin 0)).val) ∧
        (res.rows.getD (res.numHops - 1) []).getD
          (goFindIndex (buildTokens pools tIn tOut) tOut).toNat (.fin 0) = res.bestPrice))) := by
  obtain ⟨hA0, hAlt, hgA⟩ := goFindIndex_spec _ tIn (buildTokens_mem_tokenIn pools tIn tOut)
  obtain ⟨hB0, hBlt, hgB⟩ := goFindIndex_spec _ tOut (buildTokens_mem_tokenOut pools tIn tOut)
  have hsd : (goFindIndex (buildTokens pools tIn tOut) tIn).toNat ≠
      (goFindIndex (buildTokens pools tIn tOut) tOut).toNat := by
    intro he
    exact hne (by rw [← hgA, he, hgB])
  have hbest0 : (GoFloat.fin 0) =
      ((List.replicate (buildTokens pools tIn tOut).length (GoFloat.fin 0)).set
        (goFindIndex (buildTokens pools tIn tOut) tIn).toNat (.fin 1)).getD
        (goFindIndex (buildTokens pools tIn tOut) tOut).toNat (.fin 0) := by
    rw [getD_set_ne _ hsd _ _, getD_replicate_zero]
  obtain ⟨c1, c2, c3, c4, c5⟩ := dpLoop_chain p cache (buildTokens pools tIn tOut)
    (goFindIndex (buildTokens pools tIn tOut) tOut).toNat mh 1
    ((List.replicate (buildTokens pools tIn tOut).length (GoFloat.fin 0)).set
      (goFindIndex (buildTokens pools tIn tOut) tIn).toNat (.fin 1))
    [((List.replicate (buildTokens pools tIn tOut).length (GoFloat.fin 0)).set
      (goFindIndex (buildTokens pools tIn tOut) tIn).toNat (.fin 1))]
    [[]] (.fin 0) 0 res (by omega) rfl rfl rfl
    (by intro t ht1 ht2; exact absurd ht2 (by omega)) hbest0 (Or.inl rfl) hdp
  refine ⟨c1, by simpa using c2, ?_, c4, c5⟩
  obtain ⟨d1, d2⟩ := c3 0 (by simp)
  exact ⟨d1, d2⟩

/-- C7: monotonicity of the returned rate in the hop budget.  For a fixed source and
destination over the same pool universe (whose pair resolution is argument-order
independent), if route(A, B, k) and route(A, B, k + 1) both succeed for 1 <= k < 5,
the rate returned with budget k is at most the rate returned with budget k + 1. -/
theorem c7_rate_monotonicity (p : Providers) (A B k : ℕ)
    (h1 : 1 ≤ k) (h5 : k < 5)
    (hsym : ∀ x y, (p.getTradingPair x y).1 = (p.getTradingPair y x).1)
    (r1 r2 : GoFloat) (path1 path2 : List ℕ)
    (hk : Route (GetExchangeRate p) p A B k = .ok (r1, path1))
    (hk1 : Route (GetExchangeRate p) p A B (k + 1) = .ok (r2, path2)) :
    r1.val ≤ r2.val := by
  have hne : A ≠ B := by
    intro hAB
    unfold Route at hk1
    rw [if_pos hAB] at hk1
    exact Except.noConfusion hk1
  rcases hpoolsE : p.getPools with ⟨pools, e⟩
  cases e with
  | some err =>
    exfalso
    unfold Route at hk1
    rw [if_neg hne, if_neg (by omega : ¬ k + 1 = 0), if_neg (by omega : ¬ k + 1 = 1),
      if_neg (by omega : ¬ 5 < k + 1)] at hk1
    simp only [hpoolsE] at hk1
    exact Except.noConfusion hk1
  | none =>
    cases hpop : populateCache p (buildTokens pools A B) with
    | error e2 =>
      exfalso
      unfold Route at hk1
      rw [if_neg hne, if_neg (by omega : ¬ k + 1 = 0), if_neg (by omega : ¬ k + 1 = 1),
        if_neg (by omega : ¬ 5 < k + 1)] at hk1
      simp only [hpoolsE, hpop] at hk1
      exact Except.noConfusion hk1
    | ok cache =>
      rcases Nat.lt_or_ge k 2 with hklt | hk2
      · have hkeq : k = 1 := by omega
        subst hkeq
        obtain ⟨hA0, hAlt, hgA⟩ := goFindIndex_spec _ A (buildTokens_mem_tokenIn pools A B)
        obtain ⟨hB0, hBlt, hgB⟩ := goFindIndex_spec _ B (buildTokens_mem_tokenOut pools A B)
        have hsd : (goFindIndex (buildTokens pools A B) A).toNat ≠
            (goFindIndex (buildTokens pools A B) B).toNat := by
          intro he
          exact hne (by rw [← hgA, he, hgB])
        unfold Route at hk
        rw [if_neg hne, if_neg (by omega : ¬ (1 : ℕ) = 0), if_pos rfl] at hk
        cases hge : GetExchangeRate p A B with
        | error e3 =>
          simp only [hge] at hk
          exact absurd hk (by simp)
        | ok amt =>
          simp only [hge] at hk
          injection hk with hk2b
          injection hk2b with hramt hpath
          obtain ⟨res, hdp, hnh, hrr2, _⟩ := Route_ok_elim (GetExchangeRate p) p pools cache
            A B (1 + 1) r2 path2 hne (by omega) (by omega) hpoolsE hpop hk1
          obtain ⟨_, _, _, _, hc5⟩ := dpLoop_chain_init p cache pools A B (1 + 1) res hne hdp
          have hr2best : r2 = res.bestPrice := by
            rcases hc5 with h0 | ⟨_, _, _, hbp⟩
            · exact absurd h0 hnh
            · rw [hrr2, hbp]
          simp only [dpLoop] at hdp
          cases hrl : runLevel p cache (buildTokens pools A B)
              ((List.replicate (buildTokens pools A B).length (GoFloat.fin 0)).set
                (goFindIndex (buildTokens pools A B) A).toNat (.fin 1)) with
          | error e4 =>
            simp only [hrl] at hdp
            exact Except.noConfusion hdp
          | ok st =>
            simp only [hrl] at hdp
            by_cases hbr : 0 ≤ (GoFloat.fin 0).cmp (st.row.getD
                (goFindIndex (buildTokens pools A B) B).toNat (.fin 0))
            · rw [if_pos hbr] at hdp
              injection hdp with hdpb
              exfalso
              apply hnh
              rw [← hdpb]
            · rw [if_neg hbr] at hdp
              have hvle := dpLoop_best_le p cache (buildTokens pools A B)
                (goFindIndex (buildTokens pools A B) B).toNat 1 2 st.row _ _ _ _ res hdp
              have hnz0 : ((((List.replicate (buildTokens pools A B).length
                  (GoFloat.fin 0)).set
                  (goFindIndex (buildTokens pools A B) A).toNat (.fin 1)).getD
                  (goFindIndex (buildTokens pools A B) A).toNat (.fin 0)).cmp (.fin 0)) ≠ 0 := by
                rw [getD_set_self _ _ _ (by simpa using hAlt)]
                norm_num [GoFloat.cmp]
              have hrate1 : hopRate p cache
                  ((buildTokens pools A B).getD
                    (goFindIndex (buildTokens pools A B) A).toNat 0)
                  ((buildTokens pools A B).getD
                    (goFindIndex (buildTokens pools A B) B).toNat 0)
                  (((List.replicate (buildTokens pools A B).length (GoFloat.fin 0)).set
                    (goFindIndex (buildTokens pools A B) A).toNat (.fin 1)).getD
                    (goFindIndex (buildTokens pools A B) A).toNat (.fin 0)) = .ok r1 := by
                rw [hgA, hgB, hopRate_consistent p (buildTokens pools A B) cache A B hne
                  (buildTokens_mem_tokenIn pools A B) (buildTokens_mem_tokenOut pools A B)
                  hsym hpop _, hge, hramt]
              have hmul1 : ((((List.replicate (buildTokens pools A B).length
                  (GoFloat.fin 0)).set
                  (goFindIndex (buildTokens pools A B) A).toNat (.fin 1)).getD
                  (goFindIndex (buildTokens pools A B) A).toNat (.fin 0)).mul r1) = .ok r1 := by
                rw [getD_set_self _ _ _ (by simpa using hAlt)]
                exact GoFloat.one_mul_ok r1
              have hcand := runLevel_ge_candidate p cache (buildTokens pools A B)
                ((List.replicate (buildTokens pools A B).length (GoFloat.fin 0)).set
                  (goFindIndex (buildTokens pools A B) A).toNat (.fin 1)) st hrl
                (goFindIndex (buildTokens pools A B) A).toNat
                (goFindIndex (buildTokens pools A B) B).toNat
                hAlt hBlt hsd hnz0 r1 r1 hrate1 hmul1
              rw [hr2best]
              exact le_trans hcand hvle
      · obtain ⟨res1, hdp1, hnh1, hrr1, _⟩ := Route_ok_elim (GetExchangeRate p) p pools
          cache A B k r1 path1 hne hk2 (by omega) hpoolsE hpop hk
        obtain ⟨res2, hdp2, hnh2, hrr2, _⟩ := Route_ok_elim (GetExchangeRate p) p pools
          cache A B (k + 1) r2 path2 hne (by omega) (by omega) hpoolsE hpop hk1
        have hle := dpLoop_le_of_le_rem p cache (buildTokens pools A B)
          (goFindIndex (buildTokens pools A B) B).toNat k (k + 1) 1
          ((List.replicate (buildTokens pools A B).length (GoFloat.fin 0)).set
            (goFindIndex (buildTokens pools A B) A).toNat (.fin 1))
          [((List.replicate (buildTokens pools A B).length (GoFloat.fin 0)).set
            (goFindIndex (buildTokens pools A B) A).toNat (.fin 1))]
          [[]] (.fin 0) 0 res1 res2 (by omega) hdp1 hdp2
        obtain ⟨_, _, _, _, hc5a⟩ := dpLoop_chain_init p cache pools A B k res1 hne hdp1
        obtain ⟨_, _, _, _, hc5b⟩ := dpLoop_chain_init p cache pools A B (k + 1) res2 hne hdp2
        have hr1best : r1 = res1.bestPrice := by
          rcases hc5a with h0 | ⟨_, _, _, hbp⟩
          · exact absurd h0 hnh1
          · rw [hrr1, hbp]
        have hr2best : r2 = res2.bestPrice := by
          rcases hc5b with h0 | ⟨_, _, _, hbp⟩
          · exact absurd h0 hnh2
          · rw [hrr2, hbp]
        rw [hr1best, hr2best]
        exact hle

theorem c7_rate_monotonicity_witness :
    (GoFloat.fin 4).val ≤ (GoFloat.fin 4).val :=
  c7_rate_monotonicity univSuccess 1 3 2 (by decide) (by decide)
    (by intro x y; simp [univSuccess, pairCode, Nat.min_comm, Nat.max_comm])
    (.fin 4) (.fin 4) [1, 2, 3] [1, 2, 3]
    (by with_unfolding_all rfl) (by with_unfolding_all rfl)

/-- C6: path validity.  Every successful multi-hop route call returns a path whose
first element is the source asset and whose last element is the destination asset,
in which consecutive elements are distinct member tokens whose ordered pair key is
present in the reserves cache, and whose length equals the final numHops variable of
the hop-level loop (that variable is one more than the number of hops taken). -/
theorem c6_path_validity (rp : ℕ → ℕ → Except GoErr GoFloat) (p : Providers)
    (pools : List Pool) (cache : Cache) (tIn tOut mh : ℕ) (rate : GoFloat)
    (path : List ℕ)
    (hne : tIn ≠ tOut) (h2 : 2 ≤ mh) (h5 : mh ≤ 5)
    (hpools : p.getPools = (pools, none))
    (hpop : populateCache p (buildTokens pools tIn tOut) = .ok cache)
    (hroute : Route rp p tIn tOut mh = .ok (rate, path)) :
    path.head? = some tIn ∧ path.getLast? = some tOut ∧ 2 ≤ path.length ∧
    (∀ i, i + 1 < path.length → path.getD i 0 ≠ path.getD (i + 1) 0 ∧
      ∃ rs, alookup cache (path.getD i 0, path.getD (i + 1) 0) = some rs) ∧
    ∃ res : DPResult,
      dpLoop p cache (buildTokens pools tIn tOut)
          (goFindIndex (buildTokens pools tIn tOut) tOut).toNat mh 1
          ((List.replicate (buildTokens pools tIn tOut).length (GoFloat.fin 0)).set
            (goFindIndex (buildTokens pools tIn tOut) tIn).toNat (.fin 1))
          [((List.replicate (buildTokens pools tIn tOut).length (GoFloat.fin 0)).set
            (goFindIndex (buildTokens pools tIn tOut) tIn).toNat (.fin 1))]
          [[]] (.fin 0) 0 = .ok res ∧
      path.length = res.numHops := by
  obtain ⟨res, hdp, hnh, hr, hp⟩ := Route_ok_elim rp p pools cache tIn tOut mh rate path
    hne h2 h5 hpools hpop hroute
  obtain ⟨hc1, hc2, ⟨hrow0, hpm0⟩, hc4, hc5⟩ :=
    dpLoop_chain_init p cache pools tIn tOut mh res hne hdp
  rcases hc5 with h0 | ⟨hnh2, hnhle, himpL, hbp⟩
  · exact absurd h0 hnh
  obtain ⟨hA0, hAlt, hgA⟩ := goFindIndex_spec _ tIn (buildTokens_mem_tokenIn pools tIn tOut)
  obtain ⟨hB0, hBlt, hgB⟩ := goFindIndex_spec _ tOut (buildTokens_mem_tokenOut pools tIn tOut)
  have hnd := buildTokens_nodup pools tIn tOut
  have hnn : ∀ l k, (GoFloat.fin 0).val ≤
      ((res.rows.getD l []).getD k (.fin 0)).val := by
    intro l
    induction l with
    | zero =>
      intro k2
      rw [hrow0]
      by_cases hk : k2 = (goFindIndex (buildTokens pools tIn tOut) tIn).toNat
      · subst hk
        rw [getD_set_self _ _ _ (by simpa using hAlt)]
        exact (GoFloat.val_fin_le_iff 0 1).mpr (by norm_num)
      · rw [getD_set_ne _ (fun he => hk he.symm) _ _, getD_replicate_zero]
    | succ m ihm =>
      intro k2
      by_cases hm : m + 1 < res.rows.length
      · exact runLevel_nonneg p cache (buildTokens pools tIn tOut) (res.rows.getD m [])
          ⟨res.rows.getD (m + 1) [], res.pms.getD (m + 1) []⟩ ihm
          (hc4 (m + 1) (by omega) hm) k2
      · rw [List.getD_eq_default res.rows [] (by omega : res.rows.length ≤ m + 1)]
        exact le_refl _
  obtain ⟨l, hw, hlen, hlast, hcok⟩ := walkPath_spec p cache (buildTokens pools tIn tOut)
    res.rows res.pms (goFindIndex (buildTokens pools tIn tOut) tIn).toNat
    (res.numHops - 1) hnd hAlt hpop hrow0 hpm0
    (fun t ht1 ht2 => hc4 t ht1 (by omega)) hnn
    (res.numHops - 1) (by omega) (le_refl _)
    (goFindIndex (buildTokens pools tIn tOut) tOut).toNat hBlt himpL
  have hnheq : res.numHops = res.numHops - 1 + 1 := by omega
  rw [hnheq, hw] at hp
  subst hp
  have hwlen : (((buildTokens pools tIn tOut).getD
      (goFindIndex (buildTokens pools tIn tOut) tOut).toNat 0) :: l).length
      = res.numHops := by
    simp only [List.length_cons, hlen]
    omega
  refine ⟨?_, ?_, ?_, ?_, res, hdp, ?_⟩
  · rw [List.head?_reverse, hlast, hgA]
  · rw [List.getLast?_reverse, List.head?_cons, hgB]
  · rw [List.length_reverse, hwlen]
    omega
  · intro i hi
    rw [List.length_reverse, hwlen] at hi
    have hg1 := getD_reverse (((buildTokens pools tIn tOut).getD
      (goFindIndex (buildTokens pools tIn tOut) tOut).toNat 0) :: l) i 0
      (by rw [hwlen]; omega)
    have hg2 := getD_reverse (((buildTokens pools tIn tOut).getD
      (goFindIndex (buildTokens pools tIn tOut) tOut).toNat 0) :: l) (i + 1) 0
      (by rw [hwlen]; omega)
    have hja : (((buildTokens pools tIn tOut).getD
        (goFindIndex (buildTokens pools tIn tOut) tOut).toNat 0) :: l).length - 1 - i
        = (res.numHops - 2 - i) + 1 := by
      rw [hwlen]
      omega
    have hjb : (((buildTokens pools tIn tOut).getD
        (goFindIndex (buildTokens pools tIn tOut) tOut).toNat 0) :: l).length - 1 - (i + 1)
        = res.numHops - 2 - i := by
      rw [hwlen]
      omega
    rw [hg1, hg2, hja, hjb]
    have hfrom := hcok (res.numHops - 2 - i) (by omega)
    exact ⟨fun he => hfrom.1 he.symm, hfrom.2⟩
  · rw [List.length_reverse, hwlen]

theorem c6_path_validity_witness :
    ([1, 2, 3] : List ℕ).head? = some 1 ∧ ([1, 2, 3] : List ℕ).getLast? = some 3 :=
  ⟨(c6_path_validity (GetExchangeRate univSuccess) univSuccess
      ([⟨1, 2, 12⟩, ⟨2, 3, 23⟩, ⟨1, 3, 13⟩] : List Pool)
      [((3, 2), (200, 100)), ((3, 1), (100, 100)), ((2, 3), (100, 200)),
        ((2, 1), (200, 100)), ((1, 3), (100, 100)), ((1, 2), (100, 200))]
      1 3 2 (.fin 4) [1, 2, 3] (by decide) (by decide) (by decide) rfl
      (by with_unfolding_all rfl) (by with_unfolding_all rfl)).1,
   (c6_path_validity (GetExchangeRate univSuccess) univSuccess
      ([⟨1, 2, 12⟩, ⟨2, 3, 23⟩, ⟨1, 3, 13⟩] : List Pool)
      [((3, 2), (200, 100)), ((3, 1), (100, 100)), ((2, 3), (100, 200)),
        ((2, 1), (200, 100)), ((1, 3), (100, 100)), ((1, 2), (100, 200))]
      1 3 2 (.fin 4) [1, 2, 3] (by decide) (by decide) (by decide) rfl
      (by with_unfolding_all rfl) (by with_unfolding_all rfl)).2.1⟩
